import Mathlib

/-!
# Verification of the LibSWIFFT arithmetic core (`src/swifft.inl`)

This file gives a shallow embedding of the SWIFFT arithmetic engine of
`src/swifft.inl` and proves the specified properties of it.

Modelling conventions:

* Byte buffers (`BitSequence *`) are modelled as total functions `Nat → Nat`
  (each value is one byte); `int16_t` buffers are modelled as `Nat → Int`,
  one `Int` per 16-bit element.  Pointer arithmetic is modelled by explicit
  base offsets or by precomposition with an index shift.
* SIMD lane vectors (`Z1vec`, an 8-lane vector of `int16_t`, and `ZOvec`,
  a vector of `SWIFFT_O = 2^SWIFFT_LOG2_O` consecutive `Z1vec`s) act
  pointwise on their lanes, so they are embedded lane by lane; `logO`
  (= `SWIFFT_LOG2_O`) is kept as a parameter of the embedding.
* The arithmetic is carried out in `Int`, which is exact; the overflow
  claim is settled by bounding every intermediate within the `int16_t`
  range, so that the exact model and the 16-bit machine model agree.
* C `for` loops become `loopN`, which runs a state-transformer body for
  `i = 0, 1, ..., n-1` in order.
-/

/-! ## Sizes and shape constants (from `libswifft` headers, fixed by the spec) -/

def SWIFFT_N : Nat := 64

def SWIFFT_M : Nat := 32

def SWIFFT_INPUT_BLOCK_SIZE : Nat := 256

/-- Output block size in bytes; the block holds 64 `int16_t` elements. -/
def SWIFFT_OUTPUT_BLOCK_SIZE : Nat := 128

def SWIFFT_COMPACT_BLOCK_SIZE : Nat := 64

/-- `SWIFFT_O`, the number of `Z1vec` lane-columns per `ZOvec`,
determined by the compile-time constant `SWIFFT_LOG2_O`. -/
def SWIFFT_O (logO : Nat) : Nat := 2 ^ logO

/-! ## Modular arithmetic kernel

The lane primitives live in `swifft_ops.inl`, which is not part of the
sources under verification; they are modelled from the spec (§4.1). -/

/-- Modelled from the spec: `SWIFFT_modP` returns the canonical residue
modulo p = 257; the canonical system is chosen once as `{0, …, 256}`. -/
def SWIFFT_modP (x : Int) : Int := x % 257

/-- Modelled from the spec: `SWIFFT_qReduce` reduces modulo p = 257 into a
range "sufficient to bound subsequent multiplies"; the spec fixes only the
congruence and the range safety, so it is modelled by the canonical
representative. -/
def SWIFFT_qReduce (x : Int) : Int := x % 257

/-- Modelled from the spec: `SWIFFT_shift v k` multiplies by the k-th power
of the primitive 16-th root of unity 2 in ℤ/257ℤ (2^16 ≡ 1 mod 257),
"implemented via fixed shifts/adds", i.e. with a reduction built in. -/
def SWIFFT_shift (x : Int) (k : Nat) : Int := x * 2 ^ k % 257

/-- Modelled from the spec: `SWIFFT_safeMult` is the pointwise product with
whatever pre-conditioning is needed so that no 16-bit overflow occurs; its
value is the product modulo p in reduced range. -/
def SWIFFT_safeMult (a b : Int) : Int := a * b % 257

/-- Modelled from the spec: the butterfly primitive `(a, b) ↦ (a+b, a−b)`. -/
def SWIFFT_AddSub (a b : Int) : Int × Int := (a + b, a - b)

/-- Modelled from the spec: `SWIFFT_sign0` is the process-wide all-zeros
sign block. -/
def SWIFFT_sign0 : Nat → Nat := fun _ => 0

/-! ## Buffer primitives -/

/-- `loopN f n s` runs `f` for loop counter `i = 0, …, n-1` in order,
threading the state `s`; it models `for (i = 0; i < n; i++) body`. -/
def loopN {α : Type} (f : Nat → α → α) : Nat → α → α
  | 0, s => s
  | n + 1, s => f n (loopN f n s)

/-- Write `len` consecutive elements starting at `base` into a buffer,
taking the new values from `src` (indexed from `0`). -/
def writeBlock (buf : Nat → Int) (base len : Nat) (src : Nat → Int) : Nat → Int :=
  fun idx => if base ≤ idx ∧ idx < base + len then src (idx - base) else buf idx

theorem writeBlock_in {buf : Nat → Int} {base len idx : Nat} (src : Nat → Int)
    (h1 : base ≤ idx) (h2 : idx < base + len) :
    writeBlock buf base len src idx = src (idx - base) := by
  simp [writeBlock, h1, h2]

theorem writeBlock_out {buf : Nat → Int} {base len idx : Nat} (src : Nat → Int)
    (h : idx < base ∨ base + len ≤ idx) :
    writeBlock buf base len src idx = buf idx := by
  have : ¬(base ≤ idx ∧ idx < base + len) := by omega
  simp [writeBlock, this]

/-! ## FFT phase (`SWIFFT_fft_`, `src/swifft.inl` lines 26–81)

The butterfly network acts pointwise on the lanes of the eight `ZOvec`
rows `v[0..7]`, so it is embedded lane by lane: `v : Nat → Int` maps the
row index `k` to the value of row `k` at one fixed lane position. -/

/-- The load stage of one lane: for the 8-byte window starting at byte
`colBase`, row `k`, table lane `l`:
`v[k] = Tabl[SWIFFT_INT16(u[k], t[k])] * Mult[k]`, with row 0 skipping the
multiplier (`swifft.inl` lines 40–43).  `T s b l` is lane `l` of the
twiddle-table entry for sign byte `s` and input byte `b`; `Mult k l` is
lane `l` of the multiplier-table entry for row `k`. -/
def fftLoad (T : Nat → Nat → Nat → Int) (Mult : Nat → Nat → Int)
    (input sign : Nat → Nat) (colBase k l : Nat) : Int :=
  if k = 0 then T (sign colBase) (input colBase) l
  else T (sign (colBase + k)) (input (colBase + k)) l * Mult k l

/-- Butterfly stage 1: `AddSub` on row pairs (0,1), (2,3), (4,5), (6,7)
(`swifft.inl` lines 46–49). -/
def fftStage1 (v : Nat → Int) : Nat → Int := fun k =>
  match k with
  | 0 => (SWIFFT_AddSub (v 0) (v 1)).1
  | 1 => (SWIFFT_AddSub (v 0) (v 1)).2
  | 2 => (SWIFFT_AddSub (v 2) (v 3)).1
  | 3 => (SWIFFT_AddSub (v 2) (v 3)).2
  | 4 => (SWIFFT_AddSub (v 4) (v 5)).1
  | 5 => (SWIFFT_AddSub (v 4) (v 5)).2
  | 6 => (SWIFFT_AddSub (v 6) (v 7)).1
  | 7 => (SWIFFT_AddSub (v 6) (v 7)).2
  | k => v k

/-- First reduce/rotate: `v[2]=qReduce(v[2])`, `v[3]=shift(v[3],4)`,
`v[6]=qReduce(v[6])`, `v[7]=shift(v[7],4)` (`swifft.inl` lines 51–54). -/
def fftReduce1 (v : Nat → Int) : Nat → Int := fun k =>
  match k with
  | 2 => SWIFFT_qReduce (v 2)
  | 3 => SWIFFT_shift (v 3) 4
  | 6 => SWIFFT_qReduce (v 6)
  | 7 => SWIFFT_shift (v 7) 4
  | k => v k

/-- Butterfly stage 2: `AddSub` on row pairs (0,2), (1,3), (4,6), (5,7)
(`swifft.inl` lines 56–59). -/
def fftStage2 (v : Nat → Int) : Nat → Int := fun k =>
  match k with
  | 0 => (SWIFFT_AddSub (v 0) (v 2)).1
  | 2 => (SWIFFT_AddSub (v 0) (v 2)).2
  | 1 => (SWIFFT_AddSub (v 1) (v 3)).1
  | 3 => (SWIFFT_AddSub (v 1) (v 3)).2
  | 4 => (SWIFFT_AddSub (v 4) (v 6)).1
  | 6 => (SWIFFT_AddSub (v 4) (v 6)).2
  | 5 => (SWIFFT_AddSub (v 5) (v 7)).1
  | 7 => (SWIFFT_AddSub (v 5) (v 7)).2
  | k => v k

/-- Second reduce/rotate: `v[4]=qReduce(v[4])`, `v[5]=shift(v[5],2)`,
`v[6]=shift(v[6],4)`, `v[7]=shift(v[7],6)` (`swifft.inl` lines 61–64). -/
def fftReduce2 (v : Nat → Int) : Nat → Int := fun k =>
  match k with
  | 4 => SWIFFT_qReduce (v 4)
  | 5 => SWIFFT_shift (v 5) 2
  | 6 => SWIFFT_shift (v 6) 4
  | 7 => SWIFFT_shift (v 7) 6
  | k => v k

/-- Butterfly stage 3: `AddSub` on row pairs (0,4), (1,5), (2,6), (3,7)
(`swifft.inl` lines 66–69). -/
def fftStage3 (v : Nat → Int) : Nat → Int := fun k =>
  match k with
  | 0 => (SWIFFT_AddSub (v 0) (v 4)).1
  | 4 => (SWIFFT_AddSub (v 0) (v 4)).2
  | 1 => (SWIFFT_AddSub (v 1) (v 5)).1
  | 5 => (SWIFFT_AddSub (v 1) (v 5)).2
  | 2 => (SWIFFT_AddSub (v 2) (v 6)).1
  | 6 => (SWIFFT_AddSub (v 2) (v 6)).2
  | 3 => (SWIFFT_AddSub (v 3) (v 7)).1
  | 7 => (SWIFFT_AddSub (v 3) (v 7)).2
  | k => v k

/-- Final reduce: `v[k] = qReduce(v[k])` for all rows
(`swifft.inl` lines 71–73). -/
def fftFinalReduce (v : Nat → Int) : Nat → Int := fun k => SWIFFT_qReduce (v k)

/-- The full butterfly network applied to the 8 loaded rows of one lane. -/
def fftRows (v : Nat → Int) : Nat → Int :=
  fftFinalReduce (fftStage3 (fftReduce2 (fftStage2 (fftReduce1 (fftStage1 v)))))

/-- Value of output row `k`, lane `l` for the global lane column `c`
(`c = i * SWIFFT_O + j` in the loop nesting of `SWIFFT_fft_`): the
butterfly network applied to the rows loaded from the 8-byte window at
byte offset `8 * c`. -/
def fftColumn (T : Nat → Nat → Nat → Int) (Mult : Nat → Nat → Int)
    (input sign : Nat → Nat) (c k l : Nat) : Int :=
  fftRows (fun r => fftLoad T Mult input sign (8 * c) r l) k

/-- `SWIFFT_fft_` (`src/swifft.inl` lines 26–81): the FFT phase.  The outer
loop runs `m >> SWIFFT_LOG2_O` times; each iteration loads 8 `ZOvec` rows
from `8 * SWIFFT_O` input/sign bytes, runs the butterfly network, and
stores the rows contiguously per lane column, 8 `Z1vec`s (64 elements) per
column, into `fftout` starting at element offset `fbase`. -/
def SWIFFT_fft_ (logO : Nat) (T : Nat → Nat → Nat → Int) (Mult : Nat → Nat → Int)
    (input sign : Nat → Nat) (m : Nat) (fbase : Nat) (fftout : Nat → Int) : Nat → Int :=
  loopN (fun i buf =>
    loopN (fun j buf =>
      loopN (fun k buf =>
        writeBlock buf (fbase + 64 * (i * SWIFFT_O logO) + 64 * j + 8 * k) 8
          (fun l => fftColumn T Mult input sign (i * SWIFFT_O logO + j) k l)) 8 buf)
      (SWIFFT_O logO) buf)
    (m >>> logO) fftout

/-! ## FFT-sum phase (`SWIFFT_fftsum_`, `src/swifft.inl` lines 83–101) -/

/-- One multiply-accumulate term of the FFT-sum loop body
(`swifft.inl` line 95): `qReduce(safeMult(fftout[...], key[...]))`, read at
element offset `stride * i + idx` where `stride` is `8 >> SWIFFT_LOG2_O`
`ZOvec`s, i.e. `(8 >>> logO) * (8 * SWIFFT_O logO)` elements. -/
def fftsumTerm (logO : Nat) (key : Nat → Int) (fbase : Nat) (fftv : Nat → Int)
    (i idx : Nat) : Int :=
  SWIFFT_qReduce (SWIFFT_safeMult
    (fftv (fbase + 8 >>> logO * (8 * SWIFFT_O logO) * i + idx))
    (key (8 >>> logO * (8 * SWIFFT_O logO) * i + idx)))

/-- The accumulator of `SWIFFT_fftsum_` after `n` iterations of the outer
loop (`swifft.inl` lines 91–97): `ZOvec v[8 >> SWIFFT_LOG2_O] = {0};` then
for each `i`, for each `j < 8 >> SWIFFT_LOG2_O`,
`v[j] += qReduce(safeMult(fftout[j], key[j]))`.  The flattened accumulator
index is `8 * SWIFFT_O logO * j + lane`. -/
def fftsumAcc (logO : Nat) (key : Nat → Int) (fbase : Nat) (fftv : Nat → Int)
    (n : Nat) : Nat → Int :=
  loopN (fun i acc =>
    loopN (fun j a => fun idx =>
      if 8 * SWIFFT_O logO * j ≤ idx ∧ idx < 8 * SWIFFT_O logO * j + 8 * SWIFFT_O logO then
        a idx + fftsumTerm logO key fbase fftv i idx
      else a idx) (8 >>> logO) acc)
    n (fun _ => 0)

/-- `SWIFFT_fftsum_` (`src/swifft.inl` lines 83–101): accumulate the keyed
products over `m` outer iterations, then store `out[j] = modP(v[j])` for
each of the `8 >> SWIFFT_LOG2_O` accumulator vectors, at element offset
`obase`. -/
def SWIFFT_fftsum_ (logO : Nat) (key : Nat → Int) (fbase : Nat) (fftv : Nat → Int)
    (m : Nat) (obase : Nat) (iout : Nat → Int) : Nat → Int :=
  loopN (fun j buf =>
    writeBlock buf (obase + 8 * SWIFFT_O logO * j) (8 * SWIFFT_O logO)
      (fun r => SWIFFT_modP (fftsumAcc logO key fbase fftv m (8 * SWIFFT_O logO * j + r))))
    (8 >>> logO) iout

/-- Reference definition of the FFT-sum phase, written from the spec
(§4.3): `out[idx] = modP (Σ_{i<m} qReduce(safeMult(fftout[i,idx], key[i,idx])))`
for each of the 64 output elements. -/
def fftsumSpec (key : Nat → Int) (fftv : Nat → Int) (m idx : Nat) : Int :=
  SWIFFT_modP (∑ i ∈ Finset.range m,
    SWIFFT_qReduce (SWIFFT_safeMult (fftv (64 * i + idx)) (key (64 * i + idx))))

/-! ## Element-wise hash algebra (`src/swifft.inl` lines 103–224)

Each of the algebra operations is the same loop over the
`SWIFFT_OUTPUT_BLOCK_SIZE / sizeof(ZOvec) = 8 >> SWIFFT_LOG2_O` `ZOvec`s
of a hash block, applying one lane-wise update; `SWIFFT_mapOp` is that
shared loop shape, with `f old operand` the body. -/

def SWIFFT_mapOp (logO : Nat) (f : Int → Int → Int) (obase : Nat)
    (out : Nat → Int) (opd : Nat → Int) : Nat → Int :=
  loopN (fun j buf =>
    writeBlock buf (obase + 8 * SWIFFT_O logO * j) (8 * SWIFFT_O logO)
      (fun r => f (buf (obase + 8 * SWIFFT_O logO * j + r)) (opd (8 * SWIFFT_O logO * j + r))))
    (8 >>> logO) out

/-- `SWIFFT_ConstSet_` (`swifft.inl` lines 107–118): the canonicalized
constant `modP c` is precomputed once and stored to every element. -/
def SWIFFT_ConstSet_ (logO : Nat) (obase : Nat) (out : Nat → Int) (c : Int) : Nat → Int :=
  SWIFFT_mapOp logO (fun _ b => b) obase out (fun _ => SWIFFT_modP c)

/-- `SWIFFT_ConstAdd_` (`swifft.inl` lines 124–134):
`*zoutput = modP(*zoutput + zoperand)` with the broadcast raw constant. -/
def SWIFFT_ConstAdd_ (logO : Nat) (obase : Nat) (out : Nat → Int) (c : Int) : Nat → Int :=
  SWIFFT_mapOp logO (fun a b => SWIFFT_modP (a + b)) obase out (fun _ => c)

/-- `SWIFFT_ConstSub_` (`swifft.inl` lines 140–150). -/
def SWIFFT_ConstSub_ (logO : Nat) (obase : Nat) (out : Nat → Int) (c : Int) : Nat → Int :=
  SWIFFT_mapOp logO (fun a b => SWIFFT_modP (a - b)) obase out (fun _ => c)

/-- `SWIFFT_ConstMul_` (`swifft.inl` lines 156–166). -/
def SWIFFT_ConstMul_ (logO : Nat) (obase : Nat) (out : Nat → Int) (c : Int) : Nat → Int :=
  SWIFFT_mapOp logO (fun a b => SWIFFT_modP (a * b)) obase out (fun _ => c)

/-- `SWIFFT_Set_` (`swifft.inl` lines 172–176): a `memcpy` of the
`SWIFFT_OUTPUT_BLOCK_SIZE` bytes = 64 elements; `opd r` is element `r` of
the operand block. -/
def SWIFFT_Set_ (obase : Nat) (out : Nat → Int) (opd : Nat → Int) : Nat → Int :=
  writeBlock out obase 64 opd

/-- `SWIFFT_Add_` (`swifft.inl` lines 182–192):
`*zoutput = modP(*zoutput + *zoperand)`. -/
def SWIFFT_Add_ (logO : Nat) (obase : Nat) (out : Nat → Int) (opd : Nat → Int) : Nat → Int :=
  SWIFFT_mapOp logO (fun a b => SWIFFT_modP (a + b)) obase out opd

/-- `SWIFFT_Sub_` (`swifft.inl` lines 198–208). -/
def SWIFFT_Sub_ (logO : Nat) (obase : Nat) (out : Nat → Int) (opd : Nat → Int) : Nat → Int :=
  SWIFFT_mapOp logO (fun a b => SWIFFT_modP (a - b)) obase out opd

/-- `SWIFFT_Mul_` (`swifft.inl` lines 214–224). -/
def SWIFFT_Mul_ (logO : Nat) (obase : Nat) (out : Nat → Int) (opd : Nat → Int) : Nat → Int :=
  SWIFFT_mapOp logO (fun a b => SWIFFT_modP (a * b)) obase out opd

/-! ## Compression facade (`src/swifft.inl` lines 226–264) -/

/-- `SWIFFT_compute` (`swifft.inl` lines 232–240): FFT into a stack scratch
of `SWIFFT_N * SWIFFT_M` elements, then FFT-sum with the fixed public key
`SWIFFT_PI_key` (kept as the parameter `PIkey`, since the key constants
module is external).  The scratch is uninitialized in C and fully written
before use; it is modelled as a fresh zero buffer. -/
def SWIFFT_compute (logO : Nat) (T : Nat → Nat → Nat → Int) (Mult : Nat → Nat → Int)
    (PIkey : Nat → Int) (input sign : Nat → Nat) (obase : Nat)
    (output : Nat → Int) : Nat → Int :=
  SWIFFT_fftsum_ logO PIkey 0
    (SWIFFT_fft_ logO T Mult input sign SWIFFT_M 0 (fun _ => 0))
    SWIFFT_M obase output

/-- `SWIFFT_Compute_` (`swifft.inl` lines 247–251):
`SWIFFT_compute(input, SWIFFT_sign0, output)`. -/
def SWIFFT_Compute_ (logO : Nat) (T : Nat → Nat → Nat → Int) (Mult : Nat → Nat → Int)
    (PIkey : Nat → Int) (input : Nat → Nat) (obase : Nat)
    (output : Nat → Int) : Nat → Int :=
  SWIFFT_compute logO T Mult PIkey input SWIFFT_sign0 obase output

/-- `SWIFFT_ComputeSigned_` (`swifft.inl` lines 259–264):
`SWIFFT_compute(input, sign, output)`. -/
def SWIFFT_ComputeSigned_ (logO : Nat) (T : Nat → Nat → Nat → Int) (Mult : Nat → Nat → Int)
    (PIkey : Nat → Int) (input sign : Nat → Nat) (obase : Nat)
    (output : Nat → Int) : Nat → Int :=
  SWIFFT_compute logO T Mult PIkey input sign obase output

/-- Modelled from the spec: the external `SWIFFT_Compact` routine is a pure
function of the 128-byte hash block that writes one 64-byte compact block;
`Compact` maps the hash-block reader to the 64 output bytes. -/
def SWIFFT_CompactApply (Compact : (Nat → Int) → Nat → Int) (obase : Nat)
    (hash : Nat → Int) (compact : Nat → Int) : Nat → Int :=
  writeBlock compact obase SWIFFT_COMPACT_BLOCK_SIZE (Compact hash)

/-! ## Batched driver (`src/swifft.inl` lines 266–536)

Every multi-block operation is the loop over `i < nblocks` of the
single-block operation on the slices at the per-block strides of the
source; byte pointer offsets are converted to element offsets
(`SWIFFT_OUTPUT_BLOCK_SIZE` bytes = 64 elements). -/

/-- `SWIFFT_fftMultiple_` (`swifft.inl` lines 273–287): block `i` reads
`input + i * SWIFFT_INPUT_BLOCK_SIZE`, `sign + i * SWIFFT_INPUT_BLOCK_SIZE`
and writes `fftout + i * SWIFFT_N * SWIFFT_M`. -/
def SWIFFT_fftMultiple_ (logO : Nat) (T : Nat → Nat → Nat → Int) (Mult : Nat → Nat → Int)
    (nblocks : Nat) (input sign : Nat → Nat) (m : Nat) (fftout : Nat → Int) : Nat → Int :=
  loopN (fun i buf =>
    SWIFFT_fft_ logO T Mult
      (fun n => input (SWIFFT_INPUT_BLOCK_SIZE * i + n))
      (fun n => sign (SWIFFT_INPUT_BLOCK_SIZE * i + n))
      m (SWIFFT_N * SWIFFT_M * i) buf) nblocks fftout

/-- `SWIFFT_fftsumMultiple_` (`swifft.inl` lines 296–311): block `i` reads
`ifftout + i * SWIFFT_N * SWIFFT_M` (the key is shared) and writes
`iout + i * (SWIFFT_OUTPUT_BLOCK_SIZE / sizeof(int16_t))`. -/
def SWIFFT_fftsumMultiple_ (logO : Nat) (key : Nat → Int) (nblocks : Nat)
    (fftv : Nat → Int) (m : Nat) (iout : Nat → Int) : Nat → Int :=
  loopN (fun i buf =>
    SWIFFT_fftsum_ logO key (SWIFFT_N * SWIFFT_M * i) fftv m (64 * i) buf) nblocks iout

/-- `SWIFFT_CompactMultiple_` (`swifft.inl` lines 319–332). -/
def SWIFFT_CompactMultiple_ (Compact : (Nat → Int) → Nat → Int) (nblocks : Nat)
    (output : Nat → Int) (compact : Nat → Int) : Nat → Int :=
  loopN (fun i buf =>
    SWIFFT_CompactApply Compact (SWIFFT_COMPACT_BLOCK_SIZE * i)
      (fun r => output (64 * i + r)) buf) nblocks compact

/-- `SWIFFT_ConstSetMultiple_` (`swifft.inl` lines 339–352): block `i`
uses the per-block constant `operand[i]`. -/
def SWIFFT_ConstSetMultiple_ (logO : Nat) (nblocks : Nat) (output : Nat → Int)
    (operand : Nat → Int) : Nat → Int :=
  loopN (fun i buf => SWIFFT_ConstSet_ logO (64 * i) buf (operand i)) nblocks output

/-- `SWIFFT_ConstAddMultiple_` (`swifft.inl` lines 359–372). -/
def SWIFFT_ConstAddMultiple_ (logO : Nat) (nblocks : Nat) (output : Nat → Int)
    (operand : Nat → Int) : Nat → Int :=
  loopN (fun i buf => SWIFFT_ConstAdd_ logO (64 * i) buf (operand i)) nblocks output

/-- `SWIFFT_ConstSubMultiple_` (`swifft.inl` lines 379–392). -/
def SWIFFT_ConstSubMultiple_ (logO : Nat) (nblocks : Nat) (output : Nat → Int)
    (operand : Nat → Int) : Nat → Int :=
  loopN (fun i buf => SWIFFT_ConstSub_ logO (64 * i) buf (operand i)) nblocks output

/-- `SWIFFT_ConstMulMultiple_` (`swifft.inl` lines 399–412). -/
def SWIFFT_ConstMulMultiple_ (logO : Nat) (nblocks : Nat) (output : Nat → Int)
    (operand : Nat → Int) : Nat → Int :=
  loopN (fun i buf => SWIFFT_ConstMul_ logO (64 * i) buf (operand i)) nblocks output

/-- `SWIFFT_SetMultiple_` (`swifft.inl` lines 419–432). -/
def SWIFFT_SetMultiple_ (nblocks : Nat) (output : Nat → Int)
    (operand : Nat → Int) : Nat → Int :=
  loopN (fun i buf =>
    SWIFFT_Set_ (64 * i) buf (fun r => operand (64 * i + r))) nblocks output

/-- `SWIFFT_AddMultiple_` (`swifft.inl` lines 439–452). -/
def SWIFFT_AddMultiple_ (logO : Nat) (nblocks : Nat) (output : Nat → Int)
    (operand : Nat → Int) : Nat → Int :=
  loopN (fun i buf =>
    SWIFFT_Add_ logO (64 * i) buf (fun r => operand (64 * i + r))) nblocks output

/-- `SWIFFT_SubMultiple_` (`swifft.inl` lines 459–472). -/
def SWIFFT_SubMultiple_ (logO : Nat) (nblocks : Nat) (output : Nat → Int)
    (operand : Nat → Int) : Nat → Int :=
  loopN (fun i buf =>
    SWIFFT_Sub_ logO (64 * i) buf (fun r => operand (64 * i + r))) nblocks output

/-- `SWIFFT_MulMultiple_` (`swifft.inl` lines 479–492). -/
def SWIFFT_MulMultiple_ (logO : Nat) (nblocks : Nat) (output : Nat → Int)
    (operand : Nat → Int) : Nat → Int :=
  loopN (fun i buf =>
    SWIFFT_Mul_ logO (64 * i) buf (fun r => operand (64 * i + r))) nblocks output

/-- `SWIFFT_ComputeMultiple_` (`swifft.inl` lines 500–513): block `i` is
`SWIFFT_compute(input + i * SWIFFT_INPUT_BLOCK_SIZE, SWIFFT_sign0, output + i * SWIFFT_OUTPUT_BLOCK_SIZE)`. -/
def SWIFFT_ComputeMultiple_ (logO : Nat) (T : Nat → Nat → Nat → Int) (Mult : Nat → Nat → Int)
    (PIkey : Nat → Int) (nblocks : Nat) (input : Nat → Nat) (output : Nat → Int) : Nat → Int :=
  loopN (fun i buf =>
    SWIFFT_compute logO T Mult PIkey
      (fun n => input (SWIFFT_INPUT_BLOCK_SIZE * i + n)) SWIFFT_sign0 (64 * i) buf)
    nblocks output

/-- `SWIFFT_ComputeMultipleSigned_` (`swifft.inl` lines 522–536). -/
def SWIFFT_ComputeMultipleSigned_ (logO : Nat) (T : Nat → Nat → Nat → Int)
    (Mult : Nat → Nat → Int) (PIkey : Nat → Int) (nblocks : Nat)
    (input sign : Nat → Nat) (output : Nat → Int) : Nat → Int :=
  loopN (fun i buf =>
    SWIFFT_compute logO T Mult PIkey
      (fun n => input (SWIFFT_INPUT_BLOCK_SIZE * i + n))
      (fun n => sign (SWIFFT_INPUT_BLOCK_SIZE * i + n)) (64 * i) buf)
    nblocks output

/-! ## Closed forms for the loop nests -/

theorem rowStore_closed (g : Nat → Nat → Int) (cbase : Nat) :
    ∀ (n : Nat) (buf : Nat → Int) (idx : Nat),
      loopN (fun k buf => writeBlock buf (cbase + 8 * k) 8 (g k)) n buf idx =
        if cbase ≤ idx ∧ idx < cbase + 8 * n then
          g ((idx - cbase) / 8) ((idx - cbase) % 8)
        else buf idx := by
  intro n
  induction n with
  | zero => intro buf idx; simp [loopN]; omega
  | succ n ih =>
    intro buf idx
    show writeBlock _ (cbase + 8 * n) 8 (g n) idx = _
    by_cases h : cbase + 8 * n ≤ idx ∧ idx < cbase + 8 * n + 8
    · rw [writeBlock_in _ h.1 h.2]
      have h1 : (idx - cbase) / 8 = n := by omega
      have h2 : (idx - cbase) % 8 = idx - (cbase + 8 * n) := by omega
      have h3 : cbase ≤ idx ∧ idx < cbase + 8 * (n + 1) := by omega
      rw [if_pos h3, h1, h2]
    · rw [writeBlock_out _ (by omega), ih buf idx]
      by_cases h4 : cbase ≤ idx ∧ idx < cbase + 8 * n
      · rw [if_pos h4, if_pos (by omega)]
      · rw [if_neg h4, if_neg (by omega)]

theorem colStore_closed (w : Nat → Nat → Nat → Int) (gbase : Nat) :
    ∀ (n : Nat) (buf : Nat → Int) (idx : Nat),
      loopN (fun j buf =>
        loopN (fun k buf => writeBlock buf (gbase + 64 * j + 8 * k) 8 (fun l => w k j l))
          8 buf) n buf idx =
      if gbase ≤ idx ∧ idx < gbase + 64 * n then
        w ((idx - gbase) % 64 / 8) ((idx - gbase) / 64) ((idx - gbase) % 8)
      else buf idx := by
  intro n
  induction n with
  | zero => intro buf idx; simp [loopN]; omega
  | succ n ih =>
    intro buf idx
    show loopN (fun k buf => writeBlock buf (gbase + 64 * n + 8 * k) 8 _) 8 _ idx = _
    rw [rowStore_closed (fun k l => w k n l) (gbase + 64 * n) 8 _ idx]
    by_cases h : gbase + 64 * n ≤ idx ∧ idx < gbase + 64 * n + 8 * 8
    · rw [if_pos h]
      have h1 : (idx - gbase) % 64 / 8 = (idx - (gbase + 64 * n)) / 8 := by omega
      have h2 : (idx - gbase) / 64 = n := by omega
      have h3 : (idx - gbase) % 8 = (idx - (gbase + 64 * n)) % 8 := by omega
      rw [if_pos (by omega), h1, h2, h3]
    · rw [if_neg h, ih buf idx]
      by_cases h4 : gbase ≤ idx ∧ idx < gbase + 64 * n
      · rw [if_pos h4, if_pos (by omega)]
      · rw [if_neg h4, if_neg (by omega)]

/-- Full closed form of `SWIFFT_fft_`: elements of the written range
`[fbase, fbase + 64 * ((m >> logO) * O))` hold the butterfly column values
(column `c`, row `k`, lane `l` at offset `64 c + 8 k + l`); everything
else is untouched. -/
theorem SWIFFT_fft_apply (logO : Nat) (T : Nat → Nat → Nat → Int) (Mult : Nat → Nat → Int)
    (input sign : Nat → Nat) (m fbase : Nat) (fftout : Nat → Int) (idx : Nat) :
    SWIFFT_fft_ logO T Mult input sign m fbase fftout idx =
      if fbase ≤ idx ∧ idx < fbase + 64 * ((m >>> logO) * SWIFFT_O logO) then
        fftColumn T Mult input sign ((idx - fbase) / 64) ((idx - fbase) % 64 / 8)
          ((idx - fbase) % 8)
      else fftout idx := by
  show loopN _ (m >>> logO) fftout idx = _
  generalize m >>> logO = ng
  induction ng generalizing idx with
  | zero => simp [loopN]; omega
  | succ n ih =>
    show loopN (fun j buf =>
        loopN (fun k buf =>
          writeBlock buf (fbase + 64 * (n * SWIFFT_O logO) + 64 * j + 8 * k) 8
            (fun l => fftColumn T Mult input sign (n * SWIFFT_O logO + j) k l)) 8 buf)
      (SWIFFT_O logO) _ idx = _
    rw [colStore_closed (fun k j l => fftColumn T Mult input sign (n * SWIFFT_O logO + j) k l)
      (fbase + 64 * (n * SWIFFT_O logO)) (SWIFFT_O logO) _ idx]
    have hsm : (n + 1) * SWIFFT_O logO = n * SWIFFT_O logO + SWIFFT_O logO := by
      rw [Nat.succ_mul]
    by_cases h : fbase + 64 * (n * SWIFFT_O logO) ≤ idx ∧
        idx < fbase + 64 * (n * SWIFFT_O logO) + 64 * SWIFFT_O logO
    · rw [if_pos h]
      generalize ht : n * SWIFFT_O logO = t at *
      have h1 : (idx - (fbase + 64 * t)) % 64 / 8 = (idx - fbase) % 64 / 8 := by omega
      have h2 : t + (idx - (fbase + 64 * t)) / 64 = (idx - fbase) / 64 := by omega
      have h3 : (idx - (fbase + 64 * t)) % 8 = (idx - fbase) % 8 := by omega
      rw [if_pos (by omega), h1, h2, h3]
    · rw [if_neg h, ih idx]
      generalize ht : n * SWIFFT_O logO = t at *
      by_cases h4 : fbase ≤ idx ∧ idx < fbase + 64 * t
      · rw [if_pos h4, if_pos (by omega)]
      · rw [if_neg h4, if_neg (by omega)]

theorem loopN_succ {α : Type} (f : Nat → α → α) (n : Nat) (s : α) :
    loopN f (n + 1) s = f n (loopN f n s) := rfl

theorem accLoop_closed (Q : Nat) (t : Nat → Int) :
    ∀ (n : Nat) (a : Nat → Int) (idx : Nat),
      loopN (fun j a => fun idx =>
        if Q * j ≤ idx ∧ idx < Q * j + Q then a idx + t idx else a idx) n a idx =
      if idx < Q * n then a idx + t idx else a idx := by
  intro n
  induction n with
  | zero => intro a idx; simp [loopN]
  | succ n ih =>
    intro a idx
    show (if Q * n ≤ idx ∧ idx < Q * n + Q then _ else _) = _
    rw [Nat.mul_succ]
    by_cases h : Q * n ≤ idx ∧ idx < Q * n + Q
    · rw [if_pos h, ih a idx, if_neg (by omega), if_pos (by omega)]
    · rw [if_neg h, ih a idx]
      by_cases h2 : idx < Q * n
      · rw [if_pos h2, if_pos (by omega)]
      · rw [if_neg h2, if_neg (by omega)]

theorem tileStore_closed (Q : Nat) (src : Nat → Int) (obase : Nat) :
    ∀ (n : Nat) (buf : Nat → Int) (idx : Nat),
      loopN (fun j buf => writeBlock buf (obase + Q * j) Q (fun r => src (Q * j + r)))
        n buf idx =
      if obase ≤ idx ∧ idx < obase + Q * n then src (idx - obase) else buf idx := by
  intro n
  induction n with
  | zero => intro buf idx; simp [loopN]; omega
  | succ n ih =>
    intro buf idx
    simp only [loopN_succ]
    rw [Nat.mul_succ]
    by_cases h : obase + Q * n ≤ idx ∧ idx < obase + Q * n + Q
    · rw [writeBlock_in _ h.1 h.2]
      have h1 : Q * n + (idx - (obase + Q * n)) = idx - obase := by omega
      rw [h1, if_pos (by omega)]
    · rw [writeBlock_out _ (by omega), ih buf idx]
      by_cases h2 : obase ≤ idx ∧ idx < obase + Q * n
      · rw [if_pos h2, if_pos (by omega)]
      · rw [if_neg h2, if_neg (by omega)]

theorem mapLoop_closed (Q : Nat) (f : Int → Int → Int) (opd : Nat → Int) (obase : Nat) :
    ∀ (n : Nat) (out : Nat → Int) (idx : Nat),
      loopN (fun j buf => writeBlock buf (obase + Q * j) Q
          (fun r => f (buf (obase + Q * j + r)) (opd (Q * j + r)))) n out idx =
      if obase ≤ idx ∧ idx < obase + Q * n then f (out idx) (opd (idx - obase))
      else out idx := by
  intro n
  induction n with
  | zero => intro out idx; simp [loopN]; omega
  | succ n ih =>
    intro out idx
    simp only [loopN_succ]
    rw [Nat.mul_succ]
    by_cases h : obase + Q * n ≤ idx ∧ idx < obase + Q * n + Q
    · rw [writeBlock_in _ h.1 h.2]
      have h1 : obase + Q * n + (idx - (obase + Q * n)) = idx := by omega
      have h2 : Q * n + (idx - (obase + Q * n)) = idx - obase := by omega
      rw [h1, h2, ih out idx, if_neg (by omega), if_pos (by omega)]
    · rw [writeBlock_out _ (by omega), ih out idx]
      by_cases h2 : obase ≤ idx ∧ idx < obase + Q * n
      · rw [if_pos h2, if_pos (by omega)]
      · rw [if_neg h2, if_neg (by omega)]

/-- With `logO ≤ 3`, the `8 >> logO` `ZOvec`s of `8 * 2^logO` lanes each
tile exactly the 64 elements of a hash block. -/
theorem lane_total (logO : Nat) (hlog : logO ≤ 3) :
    8 * SWIFFT_O logO * (8 >>> logO) = 64 := by
  interval_cases logO <;> decide

/-- With `logO ≤ 3`, the per-iteration element stride of `SWIFFT_fftsum_`
(`8 >> logO` `ZOvec`s) is 64 elements. -/
theorem lane_stride (logO : Nat) (hlog : logO ≤ 3) :
    8 >>> logO * (8 * SWIFFT_O logO) = 64 := by
  interval_cases logO <;> decide

/-- Closed form of the `SWIFFT_fftsum_` accumulator: each of the 64
accumulator lanes holds the sum of its multiply-accumulate terms. -/
theorem fftsumAcc_closed (logO : Nat) (key : Nat → Int) (fbase : Nat) (fftv : Nat → Int)
    (n : Nat) (idx : Nat) :
    fftsumAcc logO key fbase fftv n idx =
      if idx < 8 * SWIFFT_O logO * (8 >>> logO) then
        ∑ i ∈ Finset.range n, fftsumTerm logO key fbase fftv i idx
      else 0 := by
  induction n with
  | zero =>
    show (fun _ => (0 : Int)) idx = _
    simp
  | succ n ih =>
    show loopN _ (8 >>> logO) (fftsumAcc logO key fbase fftv n) idx = _
    rw [accLoop_closed (8 * SWIFFT_O logO) (fftsumTerm logO key fbase fftv n) (8 >>> logO)
      (fftsumAcc logO key fbase fftv n) idx, ih]
    by_cases h : idx < 8 * SWIFFT_O logO * (8 >>> logO)
    · rw [if_pos h, if_pos h, if_pos h, Finset.sum_range_succ]
    · rw [if_neg h, if_neg h, if_neg h]

/-- Closed form of `SWIFFT_fftsum_`: the 64 elements at `obase` receive the
keyed linear combination followed by `modP`; everything else is untouched. -/
theorem SWIFFT_fftsum_apply (logO : Nat) (hlog : logO ≤ 3) (key : Nat → Int)
    (fbase : Nat) (fftv : Nat → Int) (m obase : Nat) (iout : Nat → Int) (idx : Nat) :
    SWIFFT_fftsum_ logO key fbase fftv m obase iout idx =
      if obase ≤ idx ∧ idx < obase + 64 then
        fftsumSpec key (fun n => fftv (fbase + n)) m (idx - obase)
      else iout idx := by
  show loopN _ (8 >>> logO) iout idx = _
  rw [tileStore_closed (8 * SWIFFT_O logO)
    (fun x => SWIFFT_modP (fftsumAcc logO key fbase fftv m x)) obase (8 >>> logO) iout idx]
  rw [lane_total logO hlog]
  by_cases h : obase ≤ idx ∧ idx < obase + 64
  · rw [if_pos h, if_pos h]
    rw [fftsumAcc_closed, lane_total logO hlog, if_pos (by omega)]
    unfold fftsumSpec SWIFFT_modP
    congr 1
    refine Finset.sum_congr rfl (fun i _ => ?_)
    unfold fftsumTerm
    rw [lane_stride logO hlog]
    have h1 : fbase + 64 * i + (idx - obase) = fbase + (64 * i + (idx - obase)) := by omega
    rw [h1]
  · rw [if_neg h, if_neg h]

/-- Closed form of the shared algebra-operation loop `SWIFFT_mapOp` for any
lane layout: the written region is the `8 >> logO` `ZOvec`s starting at
`obase`; each element becomes `f` of its old value and the operand. -/
theorem SWIFFT_mapOp_apply (logO : Nat) (f : Int → Int → Int) (obase : Nat)
    (out : Nat → Int) (opd : Nat → Int) (idx : Nat) :
    SWIFFT_mapOp logO f obase out opd idx =
      if obase ≤ idx ∧ idx < obase + 8 * SWIFFT_O logO * (8 >>> logO) then
        f (out idx) (opd (idx - obase))
      else out idx := by
  show loopN _ (8 >>> logO) out idx = _
  rw [mapLoop_closed (8 * SWIFFT_O logO) f opd obase (8 >>> logO) out idx]

/-- With `logO ≤ 3` (in fact `logO ≤ 5`), the outer FFT loop for `m = 32`
covers exactly the 32 lane columns. -/
theorem m32_exact (logO : Nat) (hlog : logO ≤ 3) :
    32 >>> logO * SWIFFT_O logO = 32 := by
  interval_cases logO <;> decide

/-- Generic closed form for the batched drivers: a loop whose body `i`
only writes the block `[B * i, B * i + B)` (`Hframe`) and whose effect
there is `W i` of the previous content of that block (`Hval`) maps each
block independently and leaves the tail untouched. -/
theorem batchLoop_closed (B : Nat) (body : Nat → (Nat → Int) → (Nat → Int))
    (W : Nat → (Nat → Int) → Nat → Int)
    (Hframe : ∀ i buf idx, idx < B * i ∨ B * i + B ≤ idx → body i buf idx = buf idx)
    (Hval : ∀ i buf idx, idx < B →
      body i buf (B * i + idx) = W i (fun r => buf (B * i + r)) idx) :
    ∀ (n : Nat) (out : Nat → Int),
      (∀ i idx, i < n → idx < B →
        loopN body n out (B * i + idx) = W i (fun r => out (B * i + r)) idx) ∧
      (∀ idx, B * n ≤ idx → loopN body n out idx = out idx) := by
  intro n
  induction n with
  | zero =>
    intro out
    exact ⟨fun i idx hi _ => absurd hi (Nat.not_lt_zero i), fun idx _ => rfl⟩
  | succ n ih =>
    intro out
    constructor
    · intro i idx hi hidx
      rw [loopN_succ]
      by_cases hcase : i = n
      · subst hcase
        rw [Hval i (loopN body i out) idx hidx]
        have hfun : (fun r => loopN body i out (B * i + r)) = (fun r => out (B * i + r)) := by
          funext r
          exact (ih out).2 (B * i + r) (by omega)
        rw [hfun]
      · have hin : i < n := by omega
        have hlt : B * i + idx < B * n := by
          have h1 : B * (i + 1) ≤ B * n := Nat.mul_le_mul_left B (by omega)
          rw [Nat.mul_succ] at h1
          omega
        rw [Hframe n (loopN body n out) (B * i + idx) (by omega)]
        exact (ih out).1 i idx hin hidx
    · intro idx hidx
      rw [Nat.mul_succ] at hidx
      rw [loopN_succ, Hframe n (loopN body n out) idx (by omega)]
      exact (ih out).2 idx (by omega)

/-- Reference value of one output element of the single-block compression:
the keyed FFT-sum (§4.3) over the butterfly column values (§4.2) of the
input block, with `m = SWIFFT_M = 32`. -/
def computeSpec (logO : Nat) (T : Nat → Nat → Nat → Int) (Mult : Nat → Nat → Int)
    (PIkey : Nat → Int) (input sign : Nat → Nat) (r : Nat) : Int :=
  fftsumSpec PIkey
    (fun n => fftColumn T Mult input sign (n / 64) (n % 64 / 8) (n % 8)) SWIFFT_M r

/-- Reading the FFT output (at base offset 0) inside its written range
gives the butterfly column values, independently of the initial buffer. -/
theorem SWIFFT_fft_read (logO : Nat) (T : Nat → Nat → Nat → Int) (Mult : Nat → Nat → Int)
    (input sign : Nat → Nat) (m : Nat) (fftout : Nat → Int) (n : Nat)
    (hn : n < 64 * (m >>> logO * SWIFFT_O logO)) :
    SWIFFT_fft_ logO T Mult input sign m 0 fftout n =
      fftColumn T Mult input sign (n / 64) (n % 64 / 8) (n % 8) := by
  rw [SWIFFT_fft_apply, if_pos (by omega)]
  simp

/-- Closed form of `SWIFFT_compute`: the 64 elements at `obase` receive the
`computeSpec` values; the rest of the output buffer is untouched.  In
particular the value does not depend on the initial content of the FFT
scratch buffer. -/
theorem SWIFFT_compute_apply (logO : Nat) (hlog : logO ≤ 3) (T : Nat → Nat → Nat → Int)
    (Mult : Nat → Nat → Int) (PIkey : Nat → Int) (input sign : Nat → Nat)
    (obase : Nat) (output : Nat → Int) (idx : Nat) :
    SWIFFT_compute logO T Mult PIkey input sign obase output idx =
      if obase ≤ idx ∧ idx < obase + 64 then
        computeSpec logO T Mult PIkey input sign (idx - obase)
      else output idx := by
  unfold SWIFFT_compute
  rw [SWIFFT_fftsum_apply logO hlog _ _ _ _ _ _ idx]
  by_cases h : obase ≤ idx ∧ idx < obase + 64
  · rw [if_pos h, if_pos h]
    unfold fftsumSpec computeSpec fftsumSpec
    congr 1
    refine Finset.sum_congr rfl (fun i hi => ?_)
    have hi32 : i < 32 := by
      have := Finset.mem_range.mp hi
      simpa [SWIFFT_M] using this
    congr 1
    beta_reduce
    rw [Nat.zero_add]
    rw [SWIFFT_fft_read logO T Mult input sign SWIFFT_M _ (64 * i + (idx - obase))]
    have hM : SWIFFT_M >>> logO * SWIFFT_O logO = 32 := m32_exact logO hlog
    omega
  · rw [if_neg h, if_neg h]

/-! ## Helper facts -/

theorem shiftRight_div (m logO : Nat) : m >>> logO = m / SWIFFT_O logO := by
  simp [SWIFFT_O, Nat.shiftRight_eq_div_pow]

theorem groups_mul_exact (m logO : Nat) (hm : SWIFFT_O logO ∣ m) :
    m >>> logO * SWIFFT_O logO = m := by
  rw [shiftRight_div]
  exact Nat.div_mul_cancel hm

/-- Membership in the canonical residue system `{0, …, 256}` for p = 257
chosen by `SWIFFT_modP`. -/
def canon (x : Int) : Prop := 0 ≤ x ∧ x < 257

theorem modP_canon (x : Int) : canon (SWIFFT_modP x) :=
  ⟨Int.emod_nonneg x (by norm_num), Int.emod_lt_of_pos x (by norm_num)⟩

theorem mapOp_at64 (logO : Nat) (hlog : logO ≤ 3) (f : Int → Int → Int) (obase : Nat)
    (out opd : Nat → Int) (idx : Nat) (h : idx < 64) :
    SWIFFT_mapOp logO f obase out opd (obase + idx) = f (out (obase + idx)) (opd idx) := by
  rw [SWIFFT_mapOp_apply, lane_total logO hlog, if_pos (by omega)]
  have e : obase + idx - obase = idx := by omega
  rw [e]

theorem mapOp_out64 (logO : Nat) (hlog : logO ≤ 3) (f : Int → Int → Int) (obase : Nat)
    (out opd : Nat → Int) (idx : Nat) (h : idx < obase ∨ obase + 64 ≤ idx) :
    SWIFFT_mapOp logO f obase out opd idx = out idx := by
  rw [SWIFFT_mapOp_apply, lane_total logO hlog, if_neg (by omega)]

/-! ## Claims -/

/-- C1: for every m that is a positive multiple of SWIFFT_O and every input
and sign buffer, `SWIFFT_fft_` computes each group of 8 lane rows exactly by
the specified schedule — load `v[k][j] = T[sign[k], input[k]] * M[k]` with
row 0 skipping the multiplier (`fftLoad`); `AddSub` on pairs
(0,1),(2,3),(4,5),(6,7) (`fftStage1`); `qReduce`/`shift` on rows 2,3,6,7
(`fftReduce1`); `AddSub` on pairs (0,2),(1,3),(4,6),(5,7) (`fftStage2`);
`qReduce`/`shift` on rows 4,5,6,7 (`fftReduce2`); `AddSub` on pairs
(0,4),(1,5),(2,6),(3,7) (`fftStage3`); `qReduce` on all eight rows
(`fftFinalReduce`) — and stores row `k`, lane `l` of group `i`, column `j`
contiguously per column at element offset `64 * (i * O + j) + 8 * k + l`,
iterating the outer loop `m / O` times. -/
theorem SWIFFT_fft_schedule_correct (logO : Nat) (T : Nat → Nat → Nat → Int)
    (Mult : Nat → Nat → Int) (input sign : Nat → Nat) (m : Nat)
    (hm : SWIFFT_O logO ∣ m) (hpos : 0 < m) (fbase : Nat) (fftout : Nat → Int)
    (i j k l : Nat) (hi : i < m / SWIFFT_O logO) (hj : j < SWIFFT_O logO)
    (hk : k < 8) (hl : l < 8) :
    SWIFFT_fft_ logO T Mult input sign m fbase fftout
        (fbase + 64 * (i * SWIFFT_O logO + j) + 8 * k + l) =
      fftColumn T Mult input sign (i * SWIFFT_O logO + j) k l := by
  have hc : i * SWIFFT_O logO + j < m >>> logO * SWIFFT_O logO := by
    rw [shiftRight_div]
    have h1 : (i + 1) * SWIFFT_O logO ≤ m / SWIFFT_O logO * SWIFFT_O logO :=
      Nat.mul_le_mul_right _ (by omega)
    rw [Nat.succ_mul] at h1
    omega
  rw [SWIFFT_fft_apply, if_pos (by omega)]
  have h1 : (fbase + 64 * (i * SWIFFT_O logO + j) + 8 * k + l - fbase) / 64 =
      i * SWIFFT_O logO + j := by omega
  have h2 : (fbase + 64 * (i * SWIFFT_O logO + j) + 8 * k + l - fbase) % 64 / 8 = k := by
    omega
  have h3 : (fbase + 64 * (i * SWIFFT_O logO + j) + 8 * k + l - fbase) % 8 = l := by
    omega
  rw [h1, h2, h3]

theorem SWIFFT_fft_schedule_correct_witness :
    (SWIFFT_O 0 ∣ 8 ∧ 0 < 8 ∧ 0 < 8 / SWIFFT_O 0 ∧ 0 < SWIFFT_O 0 ∧ 0 < 8 ∧ 0 < 8) ∧
    SWIFFT_fft_ 0 (fun _ _ _ => 1) (fun _ _ => 1) (fun _ => 0) (fun _ => 0) 8 0
        (fun _ => 0) (0 + 64 * (0 * SWIFFT_O 0 + 0) + 8 * 0 + 0) =
      fftColumn (fun _ _ _ => 1) (fun _ _ => 1) (fun _ => 0) (fun _ => 0)
        (0 * SWIFFT_O 0 + 0) 0 0 :=
  ⟨by decide,
    SWIFFT_fft_schedule_correct 0 (fun _ _ _ => 1) (fun _ _ => 1) (fun _ => 0) (fun _ => 0)
      8 (by decide) (by decide) 0 (fun _ => 0) 0 0 0 0 (by decide) (by decide)
      (by decide) (by decide)⟩

/-- C2: for every m ≥ 0, `SWIFFT_fftsum_` equals the reference definition
`fftsumSpec` — accumulate `qReduce(safeMult(fftout[i,j], key[i,j]))` over
all i and j into a zero-initialized accumulator, apply `modP` lane-wise and
store the 64 signed elements — and leaves the rest of the output buffer
untouched. -/
theorem SWIFFT_fftsum_correct (logO : Nat) (hlog : logO ≤ 3) (key : Nat → Int)
    (fbase : Nat) (fftv : Nat → Int) (m obase : Nat) (iout : Nat → Int) :
    (∀ idx, idx < 64 →
      SWIFFT_fftsum_ logO key fbase fftv m obase iout (obase + idx) =
        fftsumSpec key (fun n => fftv (fbase + n)) m idx) ∧
    (∀ idx, idx < obase ∨ obase + 64 ≤ idx →
      SWIFFT_fftsum_ logO key fbase fftv m obase iout idx = iout idx) := by
  constructor
  · intro idx h
    rw [SWIFFT_fftsum_apply logO hlog, if_pos (by omega)]
    have e : obase + idx - obase = idx := by omega
    rw [e]
  · intro idx h
    rw [SWIFFT_fftsum_apply logO hlog, if_neg (by omega)]

theorem SWIFFT_fftsum_correct_witness :
    (0 : Nat) ≤ 3 ∧
    ((∀ idx, idx < 64 →
      SWIFFT_fftsum_ 0 (fun _ => 1) 0 (fun _ => 1) 2 0 (fun _ => 0) (0 + idx) =
        fftsumSpec (fun _ => 1) (fun n => (fun _ => (1 : Int)) (0 + n)) 2 idx) ∧
    (∀ idx, idx < 0 ∨ 0 + 64 ≤ idx →
      SWIFFT_fftsum_ 0 (fun _ => 1) 0 (fun _ => 1) 2 0 (fun _ => 0) idx = (fun _ => (0 : Int)) idx)) :=
  ⟨by decide,
    SWIFFT_fftsum_correct 0 (by decide) (fun _ => 1) 0 (fun _ => 1) 2 0 (fun _ => 0)⟩

/-- The composition of the two phases with `m = SWIFFT_M` and the key at
base 0: the result does not depend on the initial content of the FFT
scratch, because the FFT writes all `64 * SWIFFT_M` elements the FFT-sum
reads. -/
theorem fftsum_fft_apply (logO : Nat) (hlog : logO ≤ 3) (T : Nat → Nat → Nat → Int)
    (Mult : Nat → Nat → Int) (PIkey : Nat → Int) (input sign : Nat → Nat)
    (obase : Nat) (output scratch : Nat → Int) (idx : Nat) :
    SWIFFT_fftsum_ logO PIkey 0 (SWIFFT_fft_ logO T Mult input sign SWIFFT_M 0 scratch)
        SWIFFT_M obase output idx =
      if obase ≤ idx ∧ idx < obase + 64 then
        computeSpec logO T Mult PIkey input sign (idx - obase)
      else output idx := by
  rw [SWIFFT_fftsum_apply logO hlog _ _ _ _ _ _ idx]
  by_cases h : obase ≤ idx ∧ idx < obase + 64
  · rw [if_pos h, if_pos h]
    unfold fftsumSpec computeSpec fftsumSpec
    congr 1
    refine Finset.sum_congr rfl (fun i hi => ?_)
    have hi32 : i < 32 := by
      have := Finset.mem_range.mp hi
      simpa [SWIFFT_M] using this
    congr 1
    beta_reduce
    rw [Nat.zero_add]
    rw [SWIFFT_fft_read logO T Mult input sign SWIFFT_M _ (64 * i + (idx - obase))]
    have hM : SWIFFT_M >>> logO * SWIFFT_O logO = 32 := m32_exact logO hlog
    omega
  · rw [if_neg h, if_neg h]

/-- C3: for every input and sign block, `SWIFFT_ComputeSigned_` equals the
FFT-sum with the fixed public key applied to the FFT of the input with
`m = SWIFFT_M = 32` — for an arbitrary initial content of the
`64 * SWIFFT_M`-element scratch buffer, since the FFT phase writes exactly
the scratch elements the FFT-sum phase reads; the 64-element (128-byte)
output block is exactly the FFT-sum result. -/
theorem SWIFFT_ComputeSigned_pipeline (logO : Nat) (hlog : logO ≤ 3)
    (T : Nat → Nat → Nat → Int) (Mult : Nat → Nat → Int) (PIkey : Nat → Int)
    (input sign : Nat → Nat) (obase : Nat) (output scratch : Nat → Int) (idx : Nat) :
    SWIFFT_ComputeSigned_ logO T Mult PIkey input sign obase output idx =
      SWIFFT_fftsum_ logO PIkey 0 (SWIFFT_fft_ logO T Mult input sign SWIFFT_M 0 scratch)
        SWIFFT_M obase output idx := by
  show SWIFFT_compute logO T Mult PIkey input sign obase output idx = _
  rw [SWIFFT_compute_apply logO hlog, fftsum_fft_apply logO hlog]

theorem SWIFFT_ComputeSigned_pipeline_witness :
    (0 : Nat) ≤ 3 ∧
    SWIFFT_ComputeSigned_ 0 (fun _ _ _ => 1) (fun _ _ => 1) (fun _ => 1) (fun _ => 0)
        (fun _ => 0) 0 (fun _ => 0) 7 =
      SWIFFT_fftsum_ 0 (fun _ => 1) 0
        (SWIFFT_fft_ 0 (fun _ _ _ => 1) (fun _ _ => 1) (fun _ => 0) (fun _ => 0)
          SWIFFT_M 0 (fun _ => 5)) SWIFFT_M 0 (fun _ => 0) 7 :=
  ⟨by decide,
    SWIFFT_ComputeSigned_pipeline 0 (by decide) (fun _ _ _ => 1) (fun _ _ => 1)
      (fun _ => 1) (fun _ => 0) (fun _ => 0) 0 (fun _ => 0) (fun _ => 5) 7⟩

/-- C4: `SWIFFT_Compute_` produces output identical to
`SWIFFT_ComputeSigned_` applied with the process-wide all-zeros sign block
`SWIFFT_sign0`. -/
theorem SWIFFT_Compute_eq_ComputeSigned_sign0 :
    (∀ n, SWIFFT_sign0 n = 0) ∧
    ∀ (logO : Nat) (T : Nat → Nat → Nat → Int) (Mult : Nat → Nat → Int)
      (PIkey : Nat → Int) (input : Nat → Nat) (obase : Nat) (output : Nat → Int),
      SWIFFT_Compute_ logO T Mult PIkey input obase output =
        SWIFFT_ComputeSigned_ logO T Mult PIkey input SWIFFT_sign0 obase output :=
  ⟨fun _ => rfl, fun _ _ _ _ _ _ _ => rfl⟩

/-- C8: each element-wise hash algebra operation iterates over the 64
elements of the hash block and applies its operation followed by `modP`:
`Add`, `Sub`, `Mul` compute `out[i] = modP(out[i] op in[i])`; `ConstSet`
stores the canonical constant `modP c` in every element; `ConstAdd`,
`ConstSub`, `ConstMul` are the broadcast-constant forms; `Set` is a copy. -/
theorem SWIFFT_algebra_pointwise (logO : Nat) (hlog : logO ≤ 3) :
    ∀ (obase : Nat) (out opd : Nat → Int) (c : Int) (idx : Nat), idx < 64 →
      SWIFFT_Add_ logO obase out opd (obase + idx) =
        SWIFFT_modP (out (obase + idx) + opd idx) ∧
      SWIFFT_Sub_ logO obase out opd (obase + idx) =
        SWIFFT_modP (out (obase + idx) - opd idx) ∧
      SWIFFT_Mul_ logO obase out opd (obase + idx) =
        SWIFFT_modP (out (obase + idx) * opd idx) ∧
      SWIFFT_ConstSet_ logO obase out c (obase + idx) = SWIFFT_modP c ∧
      SWIFFT_ConstAdd_ logO obase out c (obase + idx) =
        SWIFFT_modP (out (obase + idx) + c) ∧
      SWIFFT_ConstSub_ logO obase out c (obase + idx) =
        SWIFFT_modP (out (obase + idx) - c) ∧
      SWIFFT_ConstMul_ logO obase out c (obase + idx) =
        SWIFFT_modP (out (obase + idx) * c) ∧
      SWIFFT_Set_ obase out opd (obase + idx) = opd idx := by
  intro obase out opd c idx h
  refine ⟨?_, ?_, ?_, ?_, ?_, ?_, ?_, ?_⟩
  · exact mapOp_at64 logO hlog _ obase out opd idx h
  · exact mapOp_at64 logO hlog _ obase out opd idx h
  · exact mapOp_at64 logO hlog _ obase out opd idx h
  · exact mapOp_at64 logO hlog _ obase out (fun _ => SWIFFT_modP c) idx h
  · exact mapOp_at64 logO hlog _ obase out (fun _ => c) idx h
  · exact mapOp_at64 logO hlog _ obase out (fun _ => c) idx h
  · exact mapOp_at64 logO hlog _ obase out (fun _ => c) idx h
  · show writeBlock out obase 64 opd (obase + idx) = opd idx
    rw [writeBlock_in opd (by omega) (by omega)]
    have e : obase + idx - obase = idx := by omega
    rw [e]

theorem SWIFFT_algebra_pointwise_witness :
    (0 : Nat) ≤ 3 ∧
    ∀ (obase : Nat) (out opd : Nat → Int) (c : Int) (idx : Nat), idx < 64 →
      SWIFFT_Add_ 0 obase out opd (obase + idx) =
        SWIFFT_modP (out (obase + idx) + opd idx) ∧
      SWIFFT_Sub_ 0 obase out opd (obase + idx) =
        SWIFFT_modP (out (obase + idx) - opd idx) ∧
      SWIFFT_Mul_ 0 obase out opd (obase + idx) =
        SWIFFT_modP (out (obase + idx) * opd idx) ∧
      SWIFFT_ConstSet_ 0 obase out c (obase + idx) = SWIFFT_modP c ∧
      SWIFFT_ConstAdd_ 0 obase out c (obase + idx) =
        SWIFFT_modP (out (obase + idx) + c) ∧
      SWIFFT_ConstSub_ 0 obase out c (obase + idx) =
        SWIFFT_modP (out (obase + idx) - c) ∧
      SWIFFT_ConstMul_ 0 obase out c (obase + idx) =
        SWIFFT_modP (out (obase + idx) * c) ∧
      SWIFFT_Set_ obase out opd (obase + idx) = opd idx :=
  ⟨by decide, SWIFFT_algebra_pointwise 0 (by decide)⟩

theorem modP_add_right (a b : Int) : SWIFFT_modP (a + SWIFFT_modP b) = SWIFFT_modP (a + b) := by
  unfold SWIFFT_modP
  conv_lhs => rw [Int.add_emod]
  conv_rhs => rw [Int.add_emod]
  rw [Int.emod_emod_of_dvd b (dvd_refl 257)]

theorem modP_sub_right (a b : Int) : SWIFFT_modP (a - SWIFFT_modP b) = SWIFFT_modP (a - b) := by
  unfold SWIFFT_modP
  conv_lhs => rw [Int.sub_emod]
  conv_rhs => rw [Int.sub_emod]
  rw [Int.emod_emod_of_dvd b (dvd_refl 257)]

theorem modP_mul_right (a b : Int) : SWIFFT_modP (a * SWIFFT_modP b) = SWIFFT_modP (a * b) := by
  unfold SWIFFT_modP
  conv_lhs => rw [Int.mul_emod]
  conv_rhs => rw [Int.mul_emod]
  rw [Int.emod_emod_of_dvd b (dvd_refl 257)]

/-- C9: `ConstAdd(h, c)` is element-identical to `Add(h, t)` where
`t = ConstSet(·, c)`; likewise `ConstSub` with `Sub` and `ConstMul` with
`Mul`.  This holds for the whole buffer (all indices) and for every lane
layout: `ConstAdd` adds the raw constant while `Add` after `ConstSet` adds
the canonicalized constant `modP c`, and `modP` absorbs the difference. -/
theorem SWIFFT_const_ops_factor :
    ∀ (logO : Nat) (obase : Nat) (out tmp : Nat → Int) (c : Int) (idx : Nat),
      SWIFFT_ConstAdd_ logO obase out c idx =
        SWIFFT_Add_ logO obase out (fun r => SWIFFT_ConstSet_ logO 0 tmp c r) idx ∧
      SWIFFT_ConstSub_ logO obase out c idx =
        SWIFFT_Sub_ logO obase out (fun r => SWIFFT_ConstSet_ logO 0 tmp c r) idx ∧
      SWIFFT_ConstMul_ logO obase out c idx =
        SWIFFT_Mul_ logO obase out (fun r => SWIFFT_ConstSet_ logO 0 tmp c r) idx := by
  intro logO obase out tmp c idx
  have hcs : ∀ r, r < 8 * SWIFFT_O logO * (8 >>> logO) →
      SWIFFT_ConstSet_ logO 0 tmp c r = SWIFFT_modP c := by
    intro r hr
    show SWIFFT_mapOp logO _ 0 tmp _ r = _
    rw [SWIFFT_mapOp_apply, if_pos (by omega)]
  refine ⟨?_, ?_, ?_⟩ <;>
    · show SWIFFT_mapOp logO _ obase out _ idx = SWIFFT_mapOp logO _ obase out _ idx
      rw [SWIFFT_mapOp_apply, SWIFFT_mapOp_apply]
      by_cases h : obase ≤ idx ∧ idx < obase + 8 * SWIFFT_O logO * (8 >>> logO)
      · rw [if_pos h, if_pos h, hcs (idx - obase) (by omega)]
        first
          | exact (modP_add_right _ _).symm
          | exact (modP_sub_right _ _).symm
          | exact (modP_mul_right _ _).symm
      · rw [if_neg h, if_neg h]

/-! ## Closed forms of the batched drivers -/

/-- Batched closed form shared by all algebra `…Multiple_` drivers: block
`i` is mapped element-wise with its own operand view `opdAt i`; the tail
beyond the blocks is untouched. -/
theorem mapOpMultiple_apply (logO : Nat) (hlog : logO ≤ 3) (f : Int → Int → Int)
    (opdAt : Nat → Nat → Int) (nblocks : Nat) (out : Nat → Int) :
    (∀ i idx, i < nblocks → idx < 64 →
      loopN (fun i buf => SWIFFT_mapOp logO f (64 * i) buf (opdAt i)) nblocks out
          (64 * i + idx) =
        f (out (64 * i + idx)) (opdAt i idx)) ∧
    (∀ idx, 64 * nblocks ≤ idx →
      loopN (fun i buf => SWIFFT_mapOp logO f (64 * i) buf (opdAt i)) nblocks out idx =
        out idx) :=
  batchLoop_closed 64 (fun i buf => SWIFFT_mapOp logO f (64 * i) buf (opdAt i))
    (fun i s idx => f (s idx) (opdAt i idx))
    (fun i buf idx hidx => mapOp_out64 logO hlog f (64 * i) buf (opdAt i) idx hidx)
    (fun i buf idx hidx => mapOp_at64 logO hlog f (64 * i) buf (opdAt i) idx hidx)
    nblocks out

/-- Batched closed form for drivers whose body writes one whole 64-element
block per iteration (`SWIFFT_SetMultiple_`, `SWIFFT_CompactMultiple_`). -/
theorem blockStoreMultiple_apply (src : Nat → Nat → Int) (nblocks : Nat) (out : Nat → Int) :
    (∀ i idx, i < nblocks → idx < 64 →
      loopN (fun i buf => writeBlock buf (64 * i) 64 (src i)) nblocks out (64 * i + idx) =
        src i idx) ∧
    (∀ idx, 64 * nblocks ≤ idx →
      loopN (fun i buf => writeBlock buf (64 * i) 64 (src i)) nblocks out idx = out idx) :=
  batchLoop_closed 64 (fun i buf => writeBlock buf (64 * i) 64 (src i))
    (fun i _ idx => src i idx)
    (fun i buf idx hidx => writeBlock_out (src i) hidx)
    (fun i buf idx hidx => by
      beta_reduce
      rw [writeBlock_in (src i) (by omega) (by omega)]
      have e : 64 * i + idx - 64 * i = idx := by omega
      rw [e])
    nblocks out

/-- Batched closed form for compression drivers: block `i` receives the
`computeSpec` values of its own input and sign views. -/
theorem computeLoop_apply (logO : Nat) (hlog : logO ≤ 3) (T : Nat → Nat → Nat → Int)
    (Mult : Nat → Nat → Int) (PIkey : Nat → Int) (inAt sgAt : Nat → Nat → Nat)
    (nblocks : Nat) (out : Nat → Int) :
    (∀ i idx, i < nblocks → idx < 64 →
      loopN (fun i buf => SWIFFT_compute logO T Mult PIkey (inAt i) (sgAt i) (64 * i) buf)
          nblocks out (64 * i + idx) =
        computeSpec logO T Mult PIkey (inAt i) (sgAt i) idx) ∧
    (∀ idx, 64 * nblocks ≤ idx →
      loopN (fun i buf => SWIFFT_compute logO T Mult PIkey (inAt i) (sgAt i) (64 * i) buf)
          nblocks out idx = out idx) :=
  batchLoop_closed 64
    (fun i buf => SWIFFT_compute logO T Mult PIkey (inAt i) (sgAt i) (64 * i) buf)
    (fun i _ idx => computeSpec logO T Mult PIkey (inAt i) (sgAt i) idx)
    (fun i buf idx hidx => by
      beta_reduce
      rw [SWIFFT_compute_apply logO hlog, if_neg (by omega)])
    (fun i buf idx hidx => by
      beta_reduce
      rw [SWIFFT_compute_apply logO hlog, if_pos (by omega)]
      have e : 64 * i + idx - 64 * i = idx := by omega
      rw [e])
    nblocks out

/-- Batched closed form of `SWIFFT_fftsumMultiple_`: block `i` of the
output receives the keyed linear combination of the FFT elements at base
`SWIFFT_N * SWIFFT_M * i = 2048 * i`, for every runtime `m`. -/
theorem fftsumMultiple_apply (logO : Nat) (hlog : logO ≤ 3) (key : Nat → Int)
    (nblocks : Nat) (fftv : Nat → Int) (m : Nat) (iout : Nat → Int) :
    (∀ i idx, i < nblocks → idx < 64 →
      SWIFFT_fftsumMultiple_ logO key nblocks fftv m iout (64 * i + idx) =
        fftsumSpec key (fun n => fftv (2048 * i + n)) m idx) ∧
    (∀ idx, 64 * nblocks ≤ idx →
      SWIFFT_fftsumMultiple_ logO key nblocks fftv m iout idx = iout idx) :=
  batchLoop_closed 64
    (fun i buf => SWIFFT_fftsum_ logO key (SWIFFT_N * SWIFFT_M * i) fftv m (64 * i) buf)
    (fun i _ idx => fftsumSpec key (fun n => fftv (2048 * i + n)) m idx)
    (fun i buf idx hidx => by
      beta_reduce
      have hNM : SWIFFT_N * SWIFFT_M = 2048 := rfl
      simp only [hNM]
      rw [SWIFFT_fftsum_apply logO hlog, if_neg (by omega)])
    (fun i buf idx hidx => by
      beta_reduce
      have hNM : SWIFFT_N * SWIFFT_M = 2048 := rfl
      simp only [hNM]
      rw [SWIFFT_fftsum_apply logO hlog, if_pos (by omega)]
      have e : 64 * i + idx - 64 * i = idx := by omega
      rw [e])
    nblocks iout

/-- Batched closed form of `SWIFFT_fftMultiple_` for `O ∣ m` and `m ≤ M`:
within each stride-`2048` block, the first `64 * m` elements receive the
butterfly columns of that block's input slice and the rest of the stride
keeps its previous content; the tail beyond the blocks is untouched. -/
theorem fftMultiple_apply (logO : Nat) (T : Nat → Nat → Nat → Int) (Mult : Nat → Nat → Int)
    (nblocks : Nat) (input sign : Nat → Nat) (m : Nat) (fftout : Nat → Int)
    (hm : SWIFFT_O logO ∣ m) (hm32 : m ≤ 32) :
    (∀ i r, i < nblocks → r < 2048 →
      SWIFFT_fftMultiple_ logO T Mult nblocks input sign m fftout (2048 * i + r) =
        if r < 64 * m then
          fftColumn T Mult (fun n => input (256 * i + n)) (fun n => sign (256 * i + n))
            (r / 64) (r % 64 / 8) (r % 8)
        else fftout (2048 * i + r)) ∧
    (∀ idx, 2048 * nblocks ≤ idx →
      SWIFFT_fftMultiple_ logO T Mult nblocks input sign m fftout idx = fftout idx) :=
  batchLoop_closed 2048
    (fun i buf =>
      SWIFFT_fft_ logO T Mult
        (fun n => input (SWIFFT_INPUT_BLOCK_SIZE * i + n))
        (fun n => sign (SWIFFT_INPUT_BLOCK_SIZE * i + n))
        m (SWIFFT_N * SWIFFT_M * i) buf)
    (fun i s r =>
      if r < 64 * m then
        fftColumn T Mult (fun n => input (256 * i + n)) (fun n => sign (256 * i + n))
          (r / 64) (r % 64 / 8) (r % 8)
      else s r)
    (fun i buf idx hidx => by
      beta_reduce
      have hNM : SWIFFT_N * SWIFFT_M = 2048 := rfl
      simp only [hNM]
      rw [SWIFFT_fft_apply, groups_mul_exact m logO hm, if_neg (by omega)])
    (fun i buf r hr => by
      beta_reduce
      have hNM : SWIFFT_N * SWIFFT_M = 2048 := rfl
      have hIB : SWIFFT_INPUT_BLOCK_SIZE = 256 := rfl
      simp only [hNM, hIB]
      rw [SWIFFT_fft_apply, groups_mul_exact m logO hm]
      by_cases hr2 : r < 64 * m
      · rw [if_pos (by omega), if_pos hr2]
        have h1 : (2048 * i + r - 2048 * i) / 64 = r / 64 := by omega
        have h2 : (2048 * i + r - 2048 * i) % 64 / 8 = r % 64 / 8 := by omega
        have h3 : (2048 * i + r - 2048 * i) % 8 = r % 8 := by omega
        rw [h1, h2, h3]
      · rw [if_neg (by omega), if_neg hr2])
    nblocks fftout

theorem mapOp_at0 (logO : Nat) (hlog : logO ≤ 3) (f : Int → Int → Int)
    (out opd : Nat → Int) (idx : Nat) (h : idx < 64) :
    SWIFFT_mapOp logO f 0 out opd idx = f (out idx) (opd idx) := by
  rw [SWIFFT_mapOp_apply, lane_total logO hlog, if_pos (by omega)]
  have e : idx - 0 = idx := by omega
  rw [e]

/-- The batch-equivalence property (C7): each `…Multiple_` driver agrees,
block by block and on the untouched tail, with the corresponding
single-block operation applied to the per-block slices, in block-index
order.  `i` ranges over blocks, `idx`/`r` over elements of one block. -/
def BatchEquivalence (logO : Nat) : Prop :=
  (∀ (T : Nat → Nat → Nat → Int) (Mult : Nat → Nat → Int) (nblocks : Nat)
      (input sign : Nat → Nat) (m : Nat) (fftout : Nat → Int),
    SWIFFT_O logO ∣ m → m ≤ SWIFFT_M →
    (∀ i r, i < nblocks → r < SWIFFT_N * SWIFFT_M →
      SWIFFT_fftMultiple_ logO T Mult nblocks input sign m fftout
          (SWIFFT_N * SWIFFT_M * i + r) =
        SWIFFT_fft_ logO T Mult (fun n => input (SWIFFT_INPUT_BLOCK_SIZE * i + n))
          (fun n => sign (SWIFFT_INPUT_BLOCK_SIZE * i + n)) m 0
          (fun t => fftout (SWIFFT_N * SWIFFT_M * i + t)) r) ∧
    (∀ idx, SWIFFT_N * SWIFFT_M * nblocks ≤ idx →
      SWIFFT_fftMultiple_ logO T Mult nblocks input sign m fftout idx = fftout idx)) ∧
  (∀ (key : Nat → Int) (nblocks : Nat) (fftv : Nat → Int) (m : Nat) (iout : Nat → Int),
    (∀ i idx, i < nblocks → idx < 64 →
      SWIFFT_fftsumMultiple_ logO key nblocks fftv m iout (64 * i + idx) =
        SWIFFT_fftsum_ logO key 0 (fun n => fftv (SWIFFT_N * SWIFFT_M * i + n)) m 0
          (fun t => iout (64 * i + t)) idx) ∧
    (∀ idx, 64 * nblocks ≤ idx →
      SWIFFT_fftsumMultiple_ logO key nblocks fftv m iout idx = iout idx)) ∧
  (∀ (T : Nat → Nat → Nat → Int) (Mult : Nat → Nat → Int) (PIkey : Nat → Int)
      (nblocks : Nat) (input : Nat → Nat) (output : Nat → Int),
    (∀ i idx, i < nblocks → idx < 64 →
      SWIFFT_ComputeMultiple_ logO T Mult PIkey nblocks input output (64 * i + idx) =
        SWIFFT_Compute_ logO T Mult PIkey (fun n => input (SWIFFT_INPUT_BLOCK_SIZE * i + n))
          0 (fun t => output (64 * i + t)) idx) ∧
    (∀ idx, 64 * nblocks ≤ idx →
      SWIFFT_ComputeMultiple_ logO T Mult PIkey nblocks input output idx = output idx)) ∧
  (∀ (T : Nat → Nat → Nat → Int) (Mult : Nat → Nat → Int) (PIkey : Nat → Int)
      (nblocks : Nat) (input sign : Nat → Nat) (output : Nat → Int),
    (∀ i idx, i < nblocks → idx < 64 →
      SWIFFT_ComputeMultipleSigned_ logO T Mult PIkey nblocks input sign output
          (64 * i + idx) =
        SWIFFT_ComputeSigned_ logO T Mult PIkey
          (fun n => input (SWIFFT_INPUT_BLOCK_SIZE * i + n))
          (fun n => sign (SWIFFT_INPUT_BLOCK_SIZE * i + n))
          0 (fun t => output (64 * i + t)) idx) ∧
    (∀ idx, 64 * nblocks ≤ idx →
      SWIFFT_ComputeMultipleSigned_ logO T Mult PIkey nblocks input sign output idx =
        output idx)) ∧
  (∀ (nblocks : Nat) (output operand : Nat → Int),
    (∀ i idx, i < nblocks → idx < 64 →
      SWIFFT_SetMultiple_ nblocks output operand (64 * i + idx) =
        SWIFFT_Set_ 0 (fun t => output (64 * i + t)) (fun r => operand (64 * i + r)) idx) ∧
    (∀ idx, 64 * nblocks ≤ idx →
      SWIFFT_SetMultiple_ nblocks output operand idx = output idx)) ∧
  (∀ (nblocks : Nat) (output operand : Nat → Int),
    (∀ i idx, i < nblocks → idx < 64 →
      SWIFFT_AddMultiple_ logO nblocks output operand (64 * i + idx) =
        SWIFFT_Add_ logO 0 (fun t => output (64 * i + t)) (fun r => operand (64 * i + r)) idx) ∧
    (∀ idx, 64 * nblocks ≤ idx →
      SWIFFT_AddMultiple_ logO nblocks output operand idx = output idx)) ∧
  (∀ (nblocks : Nat) (output operand : Nat → Int),
    (∀ i idx, i < nblocks → idx < 64 →
      SWIFFT_SubMultiple_ logO nblocks output operand (64 * i + idx) =
        SWIFFT_Sub_ logO 0 (fun t => output (64 * i + t)) (fun r => operand (64 * i + r)) idx) ∧
    (∀ idx, 64 * nblocks ≤ idx →
      SWIFFT_SubMultiple_ logO nblocks output operand idx = output idx)) ∧
  (∀ (nblocks : Nat) (output operand : Nat → Int),
    (∀ i idx, i < nblocks → idx < 64 →
      SWIFFT_MulMultiple_ logO nblocks output operand (64 * i + idx) =
        SWIFFT_Mul_ logO 0 (fun t => output (64 * i + t)) (fun r => operand (64 * i + r)) idx) ∧
    (∀ idx, 64 * nblocks ≤ idx →
      SWIFFT_MulMultiple_ logO nblocks output operand idx = output idx)) ∧
  (∀ (nblocks : Nat) (output : Nat → Int) (operand : Nat → Int),
    (∀ i idx, i < nblocks → idx < 64 →
      SWIFFT_ConstSetMultiple_ logO nblocks output operand (64 * i + idx) =
        SWIFFT_ConstSet_ logO 0 (fun t => output (64 * i + t)) (operand i) idx) ∧
    (∀ idx, 64 * nblocks ≤ idx →
      SWIFFT_ConstSetMultiple_ logO nblocks output operand idx = output idx)) ∧
  (∀ (nblocks : Nat) (output : Nat → Int) (operand : Nat → Int),
    (∀ i idx, i < nblocks → idx < 64 →
      SWIFFT_ConstAddMultiple_ logO nblocks output operand (64 * i + idx) =
        SWIFFT_ConstAdd_ logO 0 (fun t => output (64 * i + t)) (operand i) idx) ∧
    (∀ idx, 64 * nblocks ≤ idx →
      SWIFFT_ConstAddMultiple_ logO nblocks output operand idx = output idx)) ∧
  (∀ (nblocks : Nat) (output : Nat → Int) (operand : Nat → Int),
    (∀ i idx, i < nblocks → idx < 64 →
      SWIFFT_ConstSubMultiple_ logO nblocks output operand (64 * i + idx) =
        SWIFFT_ConstSub_ logO 0 (fun t => output (64 * i + t)) (operand i) idx) ∧
    (∀ idx, 64 * nblocks ≤ idx →
      SWIFFT_ConstSubMultiple_ logO nblocks output operand idx = output idx)) ∧
  (∀ (nblocks : Nat) (output : Nat → Int) (operand : Nat → Int),
    (∀ i idx, i < nblocks → idx < 64 →
      SWIFFT_ConstMulMultiple_ logO nblocks output operand (64 * i + idx) =
        SWIFFT_ConstMul_ logO 0 (fun t => output (64 * i + t)) (operand i) idx) ∧
    (∀ idx, 64 * nblocks ≤ idx →
      SWIFFT_ConstMulMultiple_ logO nblocks output operand idx = output idx)) ∧
  (∀ (Compact : (Nat → Int) → Nat → Int) (nblocks : Nat) (output compact : Nat → Int),
    (∀ i idx, i < nblocks → idx < 64 →
      SWIFFT_CompactMultiple_ Compact nblocks output compact (64 * i + idx) =
        SWIFFT_CompactApply Compact 0 (fun r => output (64 * i + r))
          (fun t => compact (64 * i + t)) idx) ∧
    (∀ idx, 64 * nblocks ≤ idx →
      SWIFFT_CompactMultiple_ Compact nblocks output compact idx = compact idx))

/-- C7: for every exposed operation, every `nblocks ≥ 0` and all valid
stride-contiguous buffers (for `fftMultiple`/`fftsumMultiple` also every
valid `m`), the `…Multiple_` driver produces output identical to `nblocks`
sequential single-block calls over the corresponding slices, in
block-index order: block `i` holds the single-block result of slice `i`,
and the tail beyond the blocks is untouched. -/
theorem SWIFFT_batch_equivalence (logO : Nat) (hlog : logO ≤ 3) :
    BatchEquivalence logO := by
  have hNM : SWIFFT_N * SWIFFT_M = 2048 := rfl
  have hIB : SWIFFT_INPUT_BLOCK_SIZE = 256 := rfl
  refine ⟨?_, ?_, ?_, ?_, ?_, ?_, ?_, ?_, ?_, ?_, ?_, ?_, ?_⟩
  · -- fftMultiple
    intro T Mult nblocks input sign m fftout hm hm32
    constructor
    · intro i r hi hr
      simp only [hNM, hIB] at hr ⊢
      rw [(fftMultiple_apply logO T Mult nblocks input sign m fftout hm hm32).1 i r hi hr]
      rw [SWIFFT_fft_apply, groups_mul_exact m logO hm]
      by_cases hr2 : r < 64 * m
      · rw [if_pos hr2, if_pos (by omega)]
        simp only [Nat.sub_zero]
      · rw [if_neg hr2, if_neg (by omega)]
    · intro idx h
      simp only [hNM] at h
      exact (fftMultiple_apply logO T Mult nblocks input sign m fftout hm hm32).2 idx h
  · -- fftsumMultiple
    intro key nblocks fftv m iout
    constructor
    · intro i idx hi hidx
      have hL := (fftsumMultiple_apply logO hlog key nblocks fftv m iout).1 i idx hi hidx
      simp only [hNM]
      rw [SWIFFT_fftsum_apply logO hlog, if_pos (by omega)]
      simp only [Nat.zero_add]
      exact hL
    · exact (fftsumMultiple_apply logO hlog key nblocks fftv m iout).2
  · -- ComputeMultiple
    intro T Mult PIkey nblocks input output
    constructor
    · intro i idx hi hidx
      have hL := (computeLoop_apply logO hlog T Mult PIkey
        (fun i => fun n => input (SWIFFT_INPUT_BLOCK_SIZE * i + n)) (fun _ => SWIFFT_sign0)
        nblocks output).1 i idx hi hidx
      have hR : SWIFFT_Compute_ logO T Mult PIkey
          (fun n => input (SWIFFT_INPUT_BLOCK_SIZE * i + n)) 0
          (fun t => output (64 * i + t)) idx =
          computeSpec logO T Mult PIkey (fun n => input (SWIFFT_INPUT_BLOCK_SIZE * i + n))
            SWIFFT_sign0 idx := by
        show SWIFFT_compute logO T Mult PIkey _ _ 0 _ idx = _
        rw [SWIFFT_compute_apply logO hlog, if_pos (by omega)]
        simp only [Nat.sub_zero]
      exact hL.trans hR.symm
    · exact (computeLoop_apply logO hlog T Mult PIkey
        (fun i => fun n => input (SWIFFT_INPUT_BLOCK_SIZE * i + n)) (fun _ => SWIFFT_sign0)
        nblocks output).2
  · -- ComputeMultipleSigned
    intro T Mult PIkey nblocks input sign output
    constructor
    · intro i idx hi hidx
      have hL := (computeLoop_apply logO hlog T Mult PIkey
        (fun i => fun n => input (SWIFFT_INPUT_BLOCK_SIZE * i + n))
        (fun i => fun n => sign (SWIFFT_INPUT_BLOCK_SIZE * i + n))
        nblocks output).1 i idx hi hidx
      have hR : SWIFFT_ComputeSigned_ logO T Mult PIkey
          (fun n => input (SWIFFT_INPUT_BLOCK_SIZE * i + n))
          (fun n => sign (SWIFFT_INPUT_BLOCK_SIZE * i + n)) 0
          (fun t => output (64 * i + t)) idx =
          computeSpec logO T Mult PIkey (fun n => input (SWIFFT_INPUT_BLOCK_SIZE * i + n))
            (fun n => sign (SWIFFT_INPUT_BLOCK_SIZE * i + n)) idx := by
        show SWIFFT_compute logO T Mult PIkey _ _ 0 _ idx = _
        rw [SWIFFT_compute_apply logO hlog, if_pos (by omega)]
        simp only [Nat.sub_zero]
      exact hL.trans hR.symm
    · exact (computeLoop_apply logO hlog T Mult PIkey
        (fun i => fun n => input (SWIFFT_INPUT_BLOCK_SIZE * i + n))
        (fun i => fun n => sign (SWIFFT_INPUT_BLOCK_SIZE * i + n)) nblocks output).2
  · -- SetMultiple
    intro nblocks output operand
    constructor
    · intro i idx hi hidx
      have hL := (blockStoreMultiple_apply (fun i => fun r => operand (64 * i + r))
        nblocks output).1 i idx hi hidx
      have hR : SWIFFT_Set_ 0 (fun t => output (64 * i + t))
          (fun r => operand (64 * i + r)) idx = operand (64 * i + idx) := by
        show writeBlock _ 0 64 _ idx = _
        rw [writeBlock_in _ (by omega) (by omega)]
        simp only [Nat.sub_zero]
      exact hL.trans hR.symm
    · exact (blockStoreMultiple_apply (fun i => fun r => operand (64 * i + r))
        nblocks output).2
  · -- AddMultiple
    intro nblocks output operand
    constructor
    · intro i idx hi hidx
      have hL := (mapOpMultiple_apply logO hlog (fun a b => SWIFFT_modP (a + b))
        (fun i r => operand (64 * i + r)) nblocks output).1 i idx hi hidx
      have hR := mapOp_at0 logO hlog (fun a b => SWIFFT_modP (a + b))
        (fun t => output (64 * i + t)) (fun r => operand (64 * i + r)) idx hidx
      exact hL.trans hR.symm
    · exact (mapOpMultiple_apply logO hlog (fun a b => SWIFFT_modP (a + b))
        (fun i r => operand (64 * i + r)) nblocks output).2
  · -- SubMultiple
    intro nblocks output operand
    constructor
    · intro i idx hi hidx
      have hL := (mapOpMultiple_apply logO hlog (fun a b => SWIFFT_modP (a - b))
        (fun i r => operand (64 * i + r)) nblocks output).1 i idx hi hidx
      have hR := mapOp_at0 logO hlog (fun a b => SWIFFT_modP (a - b))
        (fun t => output (64 * i + t)) (fun r => operand (64 * i + r)) idx hidx
      exact hL.trans hR.symm
    · exact (mapOpMultiple_apply logO hlog (fun a b => SWIFFT_modP (a - b))
        (fun i r => operand (64 * i + r)) nblocks output).2
  · -- MulMultiple
    intro nblocks output operand
    constructor
    · intro i idx hi hidx
      have hL := (mapOpMultiple_apply logO hlog (fun a b => SWIFFT_modP (a * b))
        (fun i r => operand (64 * i + r)) nblocks output).1 i idx hi hidx
      have hR := mapOp_at0 logO hlog (fun a b => SWIFFT_modP (a * b))
        (fun t => output (64 * i + t)) (fun r => operand (64 * i + r)) idx hidx
      exact hL.trans hR.symm
    · exact (mapOpMultiple_apply logO hlog (fun a b => SWIFFT_modP (a * b))
        (fun i r => operand (64 * i + r)) nblocks output).2
  · -- ConstSetMultiple
    intro nblocks output operand
    constructor
    · intro i idx hi hidx
      have hL := (mapOpMultiple_apply logO hlog (fun _ b => b)
        (fun i _ => SWIFFT_modP (operand i)) nblocks output).1 i idx hi hidx
      have hR := mapOp_at0 logO hlog (fun _ b => b)
        (fun t => output (64 * i + t)) (fun _ => SWIFFT_modP (operand i)) idx hidx
      exact hL.trans hR.symm
    · exact (mapOpMultiple_apply logO hlog (fun _ b => b)
        (fun i _ => SWIFFT_modP (operand i)) nblocks output).2
  · -- ConstAddMultiple
    intro nblocks output operand
    constructor
    · intro i idx hi hidx
      have hL := (mapOpMultiple_apply logO hlog (fun a b => SWIFFT_modP (a + b))
        (fun i _ => operand i) nblocks output).1 i idx hi hidx
      have hR := mapOp_at0 logO hlog (fun a b => SWIFFT_modP (a + b))
        (fun t => output (64 * i + t)) (fun _ => operand i) idx hidx
      exact hL.trans hR.symm
    · exact (mapOpMultiple_apply logO hlog (fun a b => SWIFFT_modP (a + b))
        (fun i _ => operand i) nblocks output).2
  · -- ConstSubMultiple
    intro nblocks output operand
    constructor
    · intro i idx hi hidx
      have hL := (mapOpMultiple_apply logO hlog (fun a b => SWIFFT_modP (a - b))
        (fun i _ => operand i) nblocks output).1 i idx hi hidx
      have hR := mapOp_at0 logO hlog (fun a b => SWIFFT_modP (a - b))
        (fun t => output (64 * i + t)) (fun _ => operand i) idx hidx
      exact hL.trans hR.symm
    · exact (mapOpMultiple_apply logO hlog (fun a b => SWIFFT_modP (a - b))
        (fun i _ => operand i) nblocks output).2
  · -- ConstMulMultiple
    intro nblocks output operand
    constructor
    · intro i idx hi hidx
      have hL := (mapOpMultiple_apply logO hlog (fun a b => SWIFFT_modP (a * b))
        (fun i _ => operand i) nblocks output).1 i idx hi hidx
      have hR := mapOp_at0 logO hlog (fun a b => SWIFFT_modP (a * b))
        (fun t => output (64 * i + t)) (fun _ => operand i) idx hidx
      exact hL.trans hR.symm
    · exact (mapOpMultiple_apply logO hlog (fun a b => SWIFFT_modP (a * b))
        (fun i _ => operand i) nblocks output).2
  · -- CompactMultiple
    intro Compact nblocks output compact
    constructor
    · intro i idx hi hidx
      have hL := (blockStoreMultiple_apply (fun i => Compact (fun r => output (64 * i + r)))
        nblocks compact).1 i idx hi hidx
      have hR : SWIFFT_CompactApply Compact 0 (fun r => output (64 * i + r))
          (fun t => compact (64 * i + t)) idx =
          Compact (fun r => output (64 * i + r)) idx := by
        show writeBlock _ 0 64 _ idx = _
        rw [writeBlock_in _ (by omega) (by omega)]
        simp only [Nat.sub_zero]
      exact hL.trans hR.symm
    · exact (blockStoreMultiple_apply (fun i => Compact (fun r => output (64 * i + r)))
        nblocks compact).2

theorem SWIFFT_batch_equivalence_witness :
    (0 : Nat) ≤ 3 ∧ BatchEquivalence 0 :=
  ⟨by decide, SWIFFT_batch_equivalence 0 (by decide)⟩

/-- The stride property of the batched FFT drivers (C10): per-block
offsets are fixed by the compile-time stride `SWIFFT_N * SWIFFT_M`,
independently of the runtime parameter `m`.  Block `i` of
`SWIFFT_fftMultiple_` holds its FFT values in the first `64 * m` elements
at base `SWIFFT_N * SWIFFT_M * i` and leaves the remainder of the stride
untouched; `SWIFFT_fftsumMultiple_` reads block `i` at base
`SWIFFT_N * SWIFFT_M * i` for every runtime `m2`. -/
def StrideProp (logO m : Nat) : Prop :=
  (∀ (T : Nat → Nat → Nat → Int) (Mult : Nat → Nat → Int) (nblocks : Nat)
      (input sign : Nat → Nat) (fftout : Nat → Int) (i r : Nat),
    i < nblocks → r < 64 * m →
      SWIFFT_fftMultiple_ logO T Mult nblocks input sign m fftout
          (SWIFFT_N * SWIFFT_M * i + r) =
        fftColumn T Mult (fun n => input (SWIFFT_INPUT_BLOCK_SIZE * i + n))
          (fun n => sign (SWIFFT_INPUT_BLOCK_SIZE * i + n)) (r / 64) (r % 64 / 8) (r % 8)) ∧
  (∀ (T : Nat → Nat → Nat → Int) (Mult : Nat → Nat → Int) (nblocks : Nat)
      (input sign : Nat → Nat) (fftout : Nat → Int) (i r : Nat),
    i < nblocks → 64 * m ≤ r → r < SWIFFT_N * SWIFFT_M →
      SWIFFT_fftMultiple_ logO T Mult nblocks input sign m fftout
          (SWIFFT_N * SWIFFT_M * i + r) =
        fftout (SWIFFT_N * SWIFFT_M * i + r)) ∧
  (∀ (key : Nat → Int) (nblocks : Nat) (fftv : Nat → Int) (m2 : Nat)
      (iout : Nat → Int) (i idx : Nat),
    i < nblocks → idx < 64 →
      SWIFFT_fftsumMultiple_ logO key nblocks fftv m2 iout (64 * i + idx) =
        fftsumSpec key (fun n => fftv (SWIFFT_N * SWIFFT_M * i + n)) m2 idx)

/-- C10: `SWIFFT_fftMultiple_` writes block `i` at element offset
`i * SWIFFT_N * SWIFFT_M` (stride fixed by the compile-time constant
`M = 32`) and `SWIFFT_fftsumMultiple_` reads block `i` at the same fixed
stride, regardless of the runtime `m`; for `m < M` the gap
`[64 * m, SWIFFT_N * SWIFFT_M)` of every per-block stride stays untouched,
so the layout is strided by `N * M`, not by `N * m`. -/
theorem SWIFFT_multiple_stride (logO : Nat) (hlog : logO ≤ 3) (m : Nat)
    (hm : SWIFFT_O logO ∣ m) (hm32 : m ≤ SWIFFT_M) : StrideProp logO m := by
  have hNM : SWIFFT_N * SWIFFT_M = 2048 := rfl
  refine ⟨?_, ?_, ?_⟩
  · intro T Mult nblocks input sign fftout i r hi hr
    have hIB : SWIFFT_INPUT_BLOCK_SIZE = 256 := rfl
    simp only [hNM, hIB]
    have hr2048 : r < 2048 := by
      have hm' : m ≤ 32 := hm32
      omega
    rw [(fftMultiple_apply logO T Mult nblocks input sign m fftout hm hm32).1 i r hi hr2048]
    rw [if_pos hr]
  · intro T Mult nblocks input sign fftout i r hi hr hr2048
    simp only [hNM] at hr2048 ⊢
    rw [(fftMultiple_apply logO T Mult nblocks input sign m fftout hm hm32).1 i r hi hr2048]
    rw [if_neg (by omega)]
  · intro key nblocks fftv m2 iout i idx hi hidx
    simp only [hNM]
    exact (fftsumMultiple_apply logO hlog key nblocks fftv m2 iout).1 i idx hi hidx

theorem SWIFFT_multiple_stride_witness :
    ((0 : Nat) ≤ 3 ∧ SWIFFT_O 0 ∣ 4 ∧ 4 ≤ SWIFFT_M) ∧ StrideProp 0 4 :=
  ⟨by decide, SWIFFT_multiple_stride 0 (by decide) 4 (by decide) (by decide)⟩

/-- The canonical-range property (C5): after every exposed operation —
`Compute`, `ComputeSigned`, `Set`, `Add`, `Sub`, `Mul`, `ConstSet`,
`ConstAdd`, `ConstSub`, `ConstMul` and their batched forms — every element
of every output hash block lies in `{0, …, 256}`, the canonical residue
system for p = 257 chosen by `SWIFFT_modP` (for `Set`, a copy, under the
hypothesis that the copied operand block is canonical). -/
def CanonicalRange (logO : Nat) : Prop :=
  (∀ (T : Nat → Nat → Nat → Int) (Mult : Nat → Nat → Int) (PIkey : Nat → Int)
      (input : Nat → Nat) (obase : Nat) (output : Nat → Int) (idx : Nat), idx < 64 →
    canon (SWIFFT_Compute_ logO T Mult PIkey input obase output (obase + idx))) ∧
  (∀ (T : Nat → Nat → Nat → Int) (Mult : Nat → Nat → Int) (PIkey : Nat → Int)
      (input sign : Nat → Nat) (obase : Nat) (output : Nat → Int) (idx : Nat), idx < 64 →
    canon (SWIFFT_ComputeSigned_ logO T Mult PIkey input sign obase output (obase + idx))) ∧
  (∀ (obase : Nat) (out opd : Nat → Int) (idx : Nat),
    (∀ r, r < 64 → canon (opd r)) → idx < 64 →
    canon (SWIFFT_Set_ obase out opd (obase + idx))) ∧
  (∀ (obase : Nat) (out opd : Nat → Int) (idx : Nat), idx < 64 →
    canon (SWIFFT_Add_ logO obase out opd (obase + idx)) ∧
    canon (SWIFFT_Sub_ logO obase out opd (obase + idx)) ∧
    canon (SWIFFT_Mul_ logO obase out opd (obase + idx))) ∧
  (∀ (obase : Nat) (out : Nat → Int) (c : Int) (idx : Nat), idx < 64 →
    canon (SWIFFT_ConstSet_ logO obase out c (obase + idx)) ∧
    canon (SWIFFT_ConstAdd_ logO obase out c (obase + idx)) ∧
    canon (SWIFFT_ConstSub_ logO obase out c (obase + idx)) ∧
    canon (SWIFFT_ConstMul_ logO obase out c (obase + idx))) ∧
  (∀ (T : Nat → Nat → Nat → Int) (Mult : Nat → Nat → Int) (PIkey : Nat → Int)
      (nblocks : Nat) (input : Nat → Nat) (output : Nat → Int) (i idx : Nat),
    i < nblocks → idx < 64 →
    canon (SWIFFT_ComputeMultiple_ logO T Mult PIkey nblocks input output (64 * i + idx))) ∧
  (∀ (T : Nat → Nat → Nat → Int) (Mult : Nat → Nat → Int) (PIkey : Nat → Int)
      (nblocks : Nat) (input sign : Nat → Nat) (output : Nat → Int) (i idx : Nat),
    i < nblocks → idx < 64 →
    canon (SWIFFT_ComputeMultipleSigned_ logO T Mult PIkey nblocks input sign output
      (64 * i + idx))) ∧
  (∀ (nblocks : Nat) (output operand : Nat → Int) (i idx : Nat),
    (∀ r, r < 64 * nblocks → canon (operand r)) → i < nblocks → idx < 64 →
    canon (SWIFFT_SetMultiple_ nblocks output operand (64 * i + idx))) ∧
  (∀ (nblocks : Nat) (output operand : Nat → Int) (i idx : Nat),
    i < nblocks → idx < 64 →
    canon (SWIFFT_AddMultiple_ logO nblocks output operand (64 * i + idx)) ∧
    canon (SWIFFT_SubMultiple_ logO nblocks output operand (64 * i + idx)) ∧
    canon (SWIFFT_MulMultiple_ logO nblocks output operand (64 * i + idx))) ∧
  (∀ (nblocks : Nat) (output : Nat → Int) (operand : Nat → Int) (i idx : Nat),
    i < nblocks → idx < 64 →
    canon (SWIFFT_ConstSetMultiple_ logO nblocks output operand (64 * i + idx)) ∧
    canon (SWIFFT_ConstAddMultiple_ logO nblocks output operand (64 * i + idx)) ∧
    canon (SWIFFT_ConstSubMultiple_ logO nblocks output operand (64 * i + idx)) ∧
    canon (SWIFFT_ConstMulMultiple_ logO nblocks output operand (64 * i + idx)))

/-- C5: every exposed operation leaves every element of every output hash
block in the canonical residue system `{0, …, 256}` chosen by
`SWIFFT_modP`. -/
theorem SWIFFT_canonical_range (logO : Nat) (hlog : logO ≤ 3) : CanonicalRange logO := by
  refine ⟨?_, ?_, ?_, ?_, ?_, ?_, ?_, ?_, ?_, ?_⟩
  · intro T Mult PIkey input obase output idx hidx
    show canon (SWIFFT_compute logO T Mult PIkey input SWIFFT_sign0 obase output (obase + idx))
    rw [SWIFFT_compute_apply logO hlog, if_pos (by omega)]
    exact modP_canon _
  · intro T Mult PIkey input sign obase output idx hidx
    show canon (SWIFFT_compute logO T Mult PIkey input sign obase output (obase + idx))
    rw [SWIFFT_compute_apply logO hlog, if_pos (by omega)]
    exact modP_canon _
  · intro obase out opd idx hopd hidx
    show canon (writeBlock out obase 64 opd (obase + idx))
    rw [writeBlock_in _ (by omega) (by omega)]
    exact hopd _ (by omega)
  · intro obase out opd idx hidx
    refine ⟨?_, ?_, ?_⟩
    · unfold SWIFFT_Add_
      rw [mapOp_at64 logO hlog _ obase out opd idx hidx]
      exact modP_canon _
    · unfold SWIFFT_Sub_
      rw [mapOp_at64 logO hlog _ obase out opd idx hidx]
      exact modP_canon _
    · unfold SWIFFT_Mul_
      rw [mapOp_at64 logO hlog _ obase out opd idx hidx]
      exact modP_canon _
  · intro obase out c idx hidx
    refine ⟨?_, ?_, ?_, ?_⟩
    · unfold SWIFFT_ConstSet_
      rw [mapOp_at64 logO hlog _ obase out (fun _ => SWIFFT_modP c) idx hidx]
      exact modP_canon _
    · unfold SWIFFT_ConstAdd_
      rw [mapOp_at64 logO hlog _ obase out (fun _ => c) idx hidx]
      exact modP_canon _
    · unfold SWIFFT_ConstSub_
      rw [mapOp_at64 logO hlog _ obase out (fun _ => c) idx hidx]
      exact modP_canon _
    · unfold SWIFFT_ConstMul_
      rw [mapOp_at64 logO hlog _ obase out (fun _ => c) idx hidx]
      exact modP_canon _
  · intro T Mult PIkey nblocks input output i idx hi hidx
    unfold SWIFFT_ComputeMultiple_
    rw [(computeLoop_apply logO hlog T Mult PIkey
      (fun i => fun n => input (SWIFFT_INPUT_BLOCK_SIZE * i + n)) (fun _ => SWIFFT_sign0)
      nblocks output).1 i idx hi hidx]
    exact modP_canon _
  · intro T Mult PIkey nblocks input sign output i idx hi hidx
    unfold SWIFFT_ComputeMultipleSigned_
    rw [(computeLoop_apply logO hlog T Mult PIkey
      (fun i => fun n => input (SWIFFT_INPUT_BLOCK_SIZE * i + n))
      (fun i => fun n => sign (SWIFFT_INPUT_BLOCK_SIZE * i + n)) nblocks output).1 i idx hi hidx]
    exact modP_canon _
  · intro nblocks output operand i idx hopd hi hidx
    unfold SWIFFT_SetMultiple_ SWIFFT_Set_
    rw [(blockStoreMultiple_apply (fun i => fun r => operand (64 * i + r))
      nblocks output).1 i idx hi hidx]
    exact hopd _ (by omega)
  · intro nblocks output operand i idx hi hidx
    refine ⟨?_, ?_, ?_⟩
    · unfold SWIFFT_AddMultiple_ SWIFFT_Add_
      rw [(mapOpMultiple_apply logO hlog (fun a b => SWIFFT_modP (a + b))
        (fun i r => operand (64 * i + r)) nblocks output).1 i idx hi hidx]
      exact modP_canon _
    · unfold SWIFFT_SubMultiple_ SWIFFT_Sub_
      rw [(mapOpMultiple_apply logO hlog (fun a b => SWIFFT_modP (a - b))
        (fun i r => operand (64 * i + r)) nblocks output).1 i idx hi hidx]
      exact modP_canon _
    · unfold SWIFFT_MulMultiple_ SWIFFT_Mul_
      rw [(mapOpMultiple_apply logO hlog (fun a b => SWIFFT_modP (a * b))
        (fun i r => operand (64 * i + r)) nblocks output).1 i idx hi hidx]
      exact modP_canon _
  · intro nblocks output operand i idx hi hidx
    refine ⟨?_, ?_, ?_, ?_⟩
    · unfold SWIFFT_ConstSetMultiple_ SWIFFT_ConstSet_
      rw [(mapOpMultiple_apply logO hlog (fun _ b => b)
        (fun i _ => SWIFFT_modP (operand i)) nblocks output).1 i idx hi hidx]
      exact modP_canon _
    · unfold SWIFFT_ConstAddMultiple_ SWIFFT_ConstAdd_
      rw [(mapOpMultiple_apply logO hlog (fun a b => SWIFFT_modP (a + b))
        (fun i _ => operand i) nblocks output).1 i idx hi hidx]
      exact modP_canon _
    · unfold SWIFFT_ConstSubMultiple_ SWIFFT_ConstSub_
      rw [(mapOpMultiple_apply logO hlog (fun a b => SWIFFT_modP (a - b))
        (fun i _ => operand i) nblocks output).1 i idx hi hidx]
      exact modP_canon _
    · unfold SWIFFT_ConstMulMultiple_ SWIFFT_ConstMul_
      rw [(mapOpMultiple_apply logO hlog (fun a b => SWIFFT_modP (a * b))
        (fun i _ => operand i) nblocks output).1 i idx hi hidx]
      exact modP_canon _

theorem SWIFFT_canonical_range_witness :
    (0 : Nat) ≤ 3 ∧ CanonicalRange 0 :=
  ⟨by decide, SWIFFT_canonical_range 0 (by decide)⟩

/-! ## Range safety of the reduction schedule -/

theorem qReduce_range (x : Int) : 0 ≤ SWIFFT_qReduce x ∧ SWIFFT_qReduce x < 257 :=
  ⟨Int.emod_nonneg x (by norm_num), Int.emod_lt_of_pos x (by norm_num)⟩

theorem shift_range (x : Int) (k : Nat) : 0 ≤ SWIFFT_shift x k ∧ SWIFFT_shift x k < 257 :=
  ⟨Int.emod_nonneg _ (by norm_num), Int.emod_lt_of_pos _ (by norm_num)⟩

/-- All eight rows of a lane are bounded by `B` in magnitude. -/
def Int16Bounded (v : Nat → Int) (B : Int) : Prop :=
  ∀ k, k < 8 → -B ≤ v k ∧ v k ≤ B

/-- Rows 2, 3, 6, 7 lie in the reduced range `[0, 256]`. -/
def SmallRows2 (v : Nat → Int) : Prop :=
  (0 ≤ v 2 ∧ v 2 ≤ 256) ∧ (0 ≤ v 3 ∧ v 3 ≤ 256) ∧
  (0 ≤ v 6 ∧ v 6 ≤ 256) ∧ (0 ≤ v 7 ∧ v 7 ≤ 256)

/-- Rows 4, 5, 6, 7 lie in the reduced range `[0, 256]`. -/
def SmallRows4 (v : Nat → Int) : Prop :=
  (0 ≤ v 4 ∧ v 4 ≤ 256) ∧ (0 ≤ v 5 ∧ v 5 ≤ 256) ∧
  (0 ≤ v 6 ∧ v 6 ≤ 256) ∧ (0 ≤ v 7 ∧ v 7 ≤ 256)

theorem stage1_bound {v : Nat → Int} {B : Int} (h : Int16Bounded v B) :
    Int16Bounded (fftStage1 v) (2 * B) := by
  have h0 := h 0 (by omega); have h1 := h 1 (by omega)
  have h2 := h 2 (by omega); have h3 := h 3 (by omega)
  have h4 := h 4 (by omega); have h5 := h 5 (by omega)
  have h6 := h 6 (by omega); have h7 := h 7 (by omega)
  intro k hk
  interval_cases k <;> simp only [fftStage1, SWIFFT_AddSub] <;> omega

theorem reduce1_keep {v : Nat → Int} {B : Int} (hB : 256 ≤ B) (h : Int16Bounded v B) :
    Int16Bounded (fftReduce1 v) B := by
  intro k hk
  have h2q := qReduce_range (v 2); have h6q := qReduce_range (v 6)
  have h3s := shift_range (v 3) 4; have h7s := shift_range (v 7) 4
  have hv := h k hk
  interval_cases k <;> simp only [fftReduce1] <;> omega

theorem reduce1_small (v : Nat → Int) : SmallRows2 (fftReduce1 v) := by
  have h2q := qReduce_range (v 2); have h6q := qReduce_range (v 6)
  have h3s := shift_range (v 3) 4; have h7s := shift_range (v 7) 4
  refine ⟨?_, ?_, ?_, ?_⟩ <;> simp only [fftReduce1] <;> omega

theorem stage2_bound {v : Nat → Int} {B : Int} (h : Int16Bounded v B) (hs : SmallRows2 v) :
    Int16Bounded (fftStage2 v) (B + 256) := by
  have h0 := h 0 (by omega); have h1 := h 1 (by omega)
  have h4 := h 4 (by omega); have h5 := h 5 (by omega)
  obtain ⟨hs2, hs3, hs6, hs7⟩ := hs
  intro k hk
  interval_cases k <;> simp only [fftStage2, SWIFFT_AddSub] <;> omega

theorem reduce2_keep {v : Nat → Int} {B : Int} (hB : 256 ≤ B) (h : Int16Bounded v B) :
    Int16Bounded (fftReduce2 v) B := by
  intro k hk
  have h4q := qReduce_range (v 4)
  have h5s := shift_range (v 5) 2; have h6s := shift_range (v 6) 4
  have h7s := shift_range (v 7) 6
  have hv := h k hk
  interval_cases k <;> simp only [fftReduce2] <;> omega

theorem reduce2_small (v : Nat → Int) : SmallRows4 (fftReduce2 v) := by
  have h4q := qReduce_range (v 4)
  have h5s := shift_range (v 5) 2; have h6s := shift_range (v 6) 4
  have h7s := shift_range (v 7) 6
  refine ⟨?_, ?_, ?_, ?_⟩ <;> simp only [fftReduce2] <;> omega

theorem stage3_bound {v : Nat → Int} {B : Int} (h : Int16Bounded v B) (hs : SmallRows4 v) :
    Int16Bounded (fftStage3 v) (B + 256) := by
  have h0 := h 0 (by omega); have h1 := h 1 (by omega)
  have h2 := h 2 (by omega); have h3 := h 3 (by omega)
  obtain ⟨hs4, hs5, hs6, hs7⟩ := hs
  intro k hk
  interval_cases k <;> simp only [fftStage3, SWIFFT_AddSub] <;> omega

theorem final_small (v : Nat → Int) : Int16Bounded (fftFinalReduce v) 256 := by
  intro k hk
  have hq := qReduce_range (v k)
  simp only [fftFinalReduce]
  omega

/-- No intermediate of the FFT butterfly network leaves the signed-16-bit
range: for every lane column and lane, the rows after the load and after
each butterfly/reduce stage are bounded as shown — all bounds are at most
`32766 < 2^15 = 32768`, so no 16-bit wrap-around can occur. -/
def FftNoOverflow (T : Nat → Nat → Nat → Int) (Mult : Nat → Nat → Int)
    (input sign : Nat → Nat) : Prop :=
  ∀ c l,
    Int16Bounded (fun r => fftLoad T Mult input sign (8 * c) r l) 16127 ∧
    Int16Bounded (fftStage1 (fun r => fftLoad T Mult input sign (8 * c) r l)) 32254 ∧
    Int16Bounded (fftReduce1 (fftStage1 (fun r => fftLoad T Mult input sign (8 * c) r l)))
      32254 ∧
    Int16Bounded (fftStage2 (fftReduce1 (fftStage1
      (fun r => fftLoad T Mult input sign (8 * c) r l)))) 32510 ∧
    Int16Bounded (fftReduce2 (fftStage2 (fftReduce1 (fftStage1
      (fun r => fftLoad T Mult input sign (8 * c) r l))))) 32510 ∧
    Int16Bounded (fftStage3 (fftReduce2 (fftStage2 (fftReduce1 (fftStage1
      (fun r => fftLoad T Mult input sign (8 * c) r l)))))) 32766 ∧
    Int16Bounded (fftFinalReduce (fftStage3 (fftReduce2 (fftStage2 (fftReduce1 (fftStage1
      (fun r => fftLoad T Mult input sign (8 * c) r l))))))) 256

/-- No intermediate of the FFT-sum accumulation leaves the signed-16-bit
range: every partial accumulator after `n ≤ m` iterations is bounded by
`256 * n ≤ 256 * m`, which stays below `2^15` for `m ≤ 127` (the
compression facade uses `m = 32`). -/
def FftsumNoOverflow (logO : Nat) (key : Nat → Int) (fbase : Nat) (fftv : Nat → Int)
    (m : Nat) : Prop :=
  ∀ n idx, n ≤ m → idx < 64 →
    0 ≤ fftsumAcc logO key fbase fftv n idx ∧
    fftsumAcc logO key fbase fftv n idx ≤ 256 * (n : Int) ∧
    fftsumAcc logO key fbase fftv n idx ≤ 32512

/-- C6: the interleaved `qReduce`/`shift` schedule between butterfly stages
and the `qReduce` inside the FFT-sum loop keep every intermediate within
the signed-16-bit range, so no wrap-around modulo 2^16 occurs.  The
hypotheses bound the external twiddle/multiplier tables: the loaded values
`T[s,b]` and `T[s,b] * Mult[k]` are within `±16127` (the library's tables
satisfy this; the load-stage comment in `swifft.inl` notes the multipliers
"do not hit an edge case"). -/
theorem SWIFFT_no_overflow (logO : Nat) (hlog : logO ≤ 3) (T : Nat → Nat → Nat → Int)
    (Mult : Nat → Nat → Int) (input sign : Nat → Nat) (key : Nat → Int)
    (fbase : Nat) (fftv : Nat → Int) (m : Nat)
    (hT : ∀ s b l, -16127 ≤ T s b l ∧ T s b l ≤ 16127)
    (hTM : ∀ s b k l, -16127 ≤ T s b l * Mult k l ∧ T s b l * Mult k l ≤ 16127)
    (hm : m ≤ 127) :
    FftNoOverflow T Mult input sign ∧ FftsumNoOverflow logO key fbase fftv m := by
  constructor
  · intro c l
    have hload : Int16Bounded (fun r => fftLoad T Mult input sign (8 * c) r l) 16127 := by
      intro k hk
      by_cases hk0 : k = 0
      · subst hk0
        simp only [fftLoad, if_pos rfl]
        exact hT _ _ l
      · simp only [fftLoad, if_neg hk0]
        exact hTM _ _ k l
    have hb1 := stage1_bound hload
    have hb1' : Int16Bounded (fftStage1 (fun r => fftLoad T Mult input sign (8 * c) r l))
        32254 := by
      intro k hk
      have := hb1 k hk
      omega
    have hb2 := reduce1_keep (by norm_num) hb1'
    have hs2 := reduce1_small (fftStage1 (fun r => fftLoad T Mult input sign (8 * c) r l))
    have hb3 := stage2_bound hb2 hs2
    have hb3' : Int16Bounded (fftStage2 (fftReduce1 (fftStage1
        (fun r => fftLoad T Mult input sign (8 * c) r l)))) 32510 := by
      intro k hk
      have := hb3 k hk
      omega
    have hb4 := reduce2_keep (by norm_num) hb3'
    have hs4 := reduce2_small (fftStage2 (fftReduce1 (fftStage1
      (fun r => fftLoad T Mult input sign (8 * c) r l))))
    have hb5 := stage3_bound hb4 hs4
    have hb5' : Int16Bounded (fftStage3 (fftReduce2 (fftStage2 (fftReduce1 (fftStage1
        (fun r => fftLoad T Mult input sign (8 * c) r l)))))) 32766 := by
      intro k hk
      have := hb5 k hk
      omega
    exact ⟨hload, hb1', hb2, hb3', hb4, hb5', final_small _⟩
  · intro n idx hn hidx
    have hacc : ∀ j, j ≤ m → 0 ≤ fftsumAcc logO key fbase fftv j idx ∧
        fftsumAcc logO key fbase fftv j idx ≤ 256 * (j : Int) := by
      intro j hj
      induction j with
      | zero =>
        show 0 ≤ (fun _ => (0 : Int)) idx ∧ (fun _ => (0 : Int)) idx ≤ 256 * ((0 : Nat) : Int)
        norm_num
      | succ j ih =>
        have hij := ih (by omega)
        have hstep : fftsumAcc logO key fbase fftv (j + 1) idx =
            fftsumAcc logO key fbase fftv j idx + fftsumTerm logO key fbase fftv j idx := by
          show loopN _ (8 >>> logO) (fftsumAcc logO key fbase fftv j) idx = _
          rw [accLoop_closed (8 * SWIFFT_O logO) (fftsumTerm logO key fbase fftv j)
            (8 >>> logO) (fftsumAcc logO key fbase fftv j) idx]
          rw [if_pos (by rw [lane_total logO hlog]; omega)]
        have hterm := qReduce_range (SWIFFT_safeMult
          (fftv (fbase + 8 >>> logO * (8 * SWIFFT_O logO) * j + idx))
          (key (8 >>> logO * (8 * SWIFFT_O logO) * j + idx)))
        have hcast : ((j + 1 : Nat) : Int) = (j : Int) + 1 := by push_cast; ring
        rw [hstep, hcast]
        unfold fftsumTerm
        omega
    have h1 := hacc n hn
    refine ⟨h1.1, h1.2, ?_⟩
    have hcast : (n : Int) ≤ 127 := by exact_mod_cast hn.trans hm
    have := h1.2
    omega

theorem SWIFFT_no_overflow_witness :
    ((0 : Nat) ≤ 3 ∧
     (∀ s b l : Nat, -16127 ≤ (fun _ _ _ => (1 : Int)) s b l ∧
        (fun _ _ _ => (1 : Int)) s b l ≤ 16127) ∧
     (∀ s b k l : Nat, -16127 ≤ (fun _ _ _ => (1 : Int)) s b l * (fun _ _ => (1 : Int)) k l ∧
        (fun _ _ _ => (1 : Int)) s b l * (fun _ _ => (1 : Int)) k l ≤ 16127) ∧
     32 ≤ 127) ∧
    (FftNoOverflow (fun _ _ _ => 1) (fun _ _ => 1) (fun _ => 0) (fun _ => 0) ∧
     FftsumNoOverflow 0 (fun _ => 1) 0 (fun _ => 1) 32) :=
  ⟨⟨by decide, fun _ _ _ => by norm_num, fun _ _ _ _ => by norm_num, by decide⟩,
    SWIFFT_no_overflow 0 (by decide) (fun _ _ _ => 1) (fun _ _ => 1) (fun _ => 0)
      (fun _ => 0) (fun _ => 1) 0 (fun _ => 1) 32
      (fun _ _ _ => by norm_num) (fun _ _ _ _ => by norm_num) (by norm_num)⟩
